import Mathlib

/-!
Verification of the competition-ingestion pipeline (scripts/pull-feeds.mjs and
its revisions).  The JavaScript source is shallowly embedded: strings are Lean
`String`s manipulated as `List Char`, JS timestamps (millisecond epoch values
returned by `Date.parse` / rendered by `Date.prototype.toISOString`) are `Int`
wrapped in an explicit `DateStr` type, and the WHATWG `URL` object is modelled
by a record together with an executable parser and serializer.

Scope notes for the URL model (documented deviations from the full WHATWG
parser, none of which the claims exercise): no percent-encoding or punycode,
no userinfo or IPv6 hosts, backslashes and control characters inside URLs are
rejected instead of normalized, and the scheme must be followed by the literal
"://".  On well-formed http(s) URLs made of printable characters the model
agrees with the JS `URL` class, including host lowercasing, the implicit "/"
path, default-port stripping and fragment/query serialization.
-/

namespace CompHunt

/-- JS falsy-or test for strings: `a || b` where `a : Option String`
(absent → `b`, empty string → `b`, otherwise `a`). -/
def strOr (o : Option String) (d : String) : String :=
  match o with
  | none => d
  | some s => if s = "" then d else s

/-- Whitespace class used by the regexes `/\s+/` (ASCII part). -/
def isWsChar (c : Char) : Bool :=
  c == ' ' || c == '\t' || c == '\n' || c == '\r' || c == '\x0b' || c == '\x0c'

/-- One step of `s.replace(/\s+/g, " ")`: every maximal run of whitespace
characters becomes a single space. -/
def collapseRun : List Char → List Char
  | [] => []
  | [c] => [if isWsChar c then ' ' else c]
  | c :: d :: cs =>
    if isWsChar c && isWsChar d then collapseRun (d :: cs)
    else (if isWsChar c then ' ' else c) :: collapseRun (d :: cs)

/-- `String.prototype.trim` after the whitespace collapse (all remaining
whitespace is a single space, so trimming spaces suffices). -/
def trimSpacesList (l : List Char) : List Char :=
  ((l.dropWhile (fun c => c == ' ')).reverse.dropWhile (fun c => c == ' ')).reverse

/-- `collapse` from the source: `s.replace(/\s+/g, " ").trim()`. -/
def collapse (s : String) : String :=
  String.mk (trimSpacesList (collapseRun s.toList))

/-- Shape of a whitespace-collapsed character list: every whitespace character
is a plain space and no two adjacent characters are both whitespace. -/
def goodWs (l : List Char) : Prop :=
  (∀ c ∈ l, isWsChar c = true → c = ' ') ∧
  List.Chain' (fun a b => ¬(isWsChar a = true ∧ isWsChar b = true)) l

/-- ASCII lowercasing of one character, the model of
`String.prototype.toLowerCase` applied characterwise. -/
def lowChar (c : Char) : Char :=
  if 65 ≤ c.toNat ∧ c.toNat ≤ 90 then Char.ofNat (c.toNat + 32) else c

def lowerChars (l : List Char) : List Char := l.map lowChar

def lowerStr (s : String) : String := String.mk (lowerChars s.toList)

/-- Is `pre` a leading segment of `s`?  (model of `String.prototype.startsWith`). -/
def leadsWith : List Char → List Char → Bool
  | [], _ => true
  | _ :: _, [] => false
  | p :: ps, c :: cs => p == c && leadsWith ps cs

/-- Split off the longest segment free of the characters in `stops`. -/
def spanUntil (stops : List Char) : List Char → List Char × List Char
  | [] => ([], [])
  | c :: cs =>
    if stops.contains c then ([], c :: cs)
    else
      let p := spanUntil stops cs
      (c :: p.1, p.2)

/-- Split a character list on every occurrence of `d` (like `split("&")`). -/
def splitOnChar (d : Char) : List Char → List (List Char)
  | [] => [[]]
  | c :: cs =>
    match splitOnChar d cs with
    | [] => [[c]]
    | r :: rs => if c == d then [] :: r :: rs else (c :: r) :: rs

/-! ## The URL model -/

/-- The state of a parsed WHATWG `URL` object as the script uses it. -/
structure URLRec where
  scheme : String
  hostname : String
  port : Option String
  path : String
  query : List (String × Option String)
  frag : Option String
deriving DecidableEq, Repr

/-- Characters acceptable inside modelled URL components: printable and not a
backslash (the JS parser would instead encode or normalize the rest). -/
def goodByte (c : Char) : Bool := 32 < c.toNat && c != '\\'

/-- ASCII letter (the arithmetic form of `Char.isAlpha`). -/
def isAlphaChar (c : Char) : Bool :=
  (65 ≤ c.toNat && c.toNat ≤ 90) || (97 ≤ c.toNat && c.toNat ≤ 122)

/-- ASCII digit (the arithmetic form of `Char.isDigit`). -/
def isDigitChar (c : Char) : Bool := 48 ≤ c.toNat && c.toNat ≤ 57

def isSchemeChar (c : Char) : Bool :=
  isAlphaChar c || isDigitChar c || c == '+' || c == '-' || c == '.'

def isHostChar (c : Char) : Bool :=
  goodByte c && c != '@' && c != '[' && c != ']' && c != '%'

/-- No character of `l` belongs to `bad`. -/
def noneOf (bad : List Char) (l : List Char) : Bool :=
  l.all fun c => !(bad.contains c)

/-- The WHATWG pre-processing: strip tab/newline everywhere, then trim
control-or-space characters from both ends. -/
def preClean (l : List Char) : List Char :=
  let l1 := l.filter (fun c => !(c == '\t' || c == '\n' || c == '\r'))
  ((l1.dropWhile (fun c => c.toNat ≤ 32)).reverse.dropWhile (fun c => c.toNat ≤ 32)).reverse

/-- Recognize `scheme://` and return the scheme and the remainder (the
validity of the scheme itself is checked by `wfCheckB` below). -/
def splitScheme (l : List Char) : Option (List Char × List Char) :=
  match spanUntil [':'] l with
  | (sch, ':' :: '/' :: '/' :: r) => some (sch, r)
  | _ => none

def httpChars : List Char := ['h', 't', 't', 'p']
def httpsChars : List Char := ['h', 't', 't', 'p', 's']

def isSpecialScheme (sc : List Char) : Bool := sc == httpChars || sc == httpsChars

/-- `key=value` → pair; a piece with no `=` keeps `none` as its value so that
serialization reproduces the original text. -/
def parseQueryPiece (piece : List Char) : String × Option String :=
  match spanUntil ['='] piece with
  | (k, '=' :: v) => (String.mk k, some (String.mk v))
  | (k, _) => (String.mk k, none)

def parseQueryChars (qcs : List Char) : List (String × Option String) :=
  (splitOnChar '&' qcs).map parseQueryPiece

/-- Record-level validity: exactly the shape a record produced by a
successful WHATWG parse has (nonempty well-formed scheme and host, both
already lowercase; digit-only non-default port; a path that is absent only
for non-special schemes and otherwise starts with "/"; no separator or
control characters inside any component).  The parser re-validates its own
output with this check — a no-op on anything it builds — so that reparsing a
serialized record is provably the identity. -/
def wfCheckB (u : URLRec) : Bool :=
  (!u.scheme.toList.isEmpty && isAlphaChar (u.scheme.toList.headD 'a') &&
    u.scheme.toList.all isSchemeChar) &&
  (lowerChars u.scheme.toList == u.scheme.toList) &&
  (!u.hostname.toList.isEmpty && u.hostname.toList.all isHostChar &&
    noneOf [':', '/', '?', '#'] u.hostname.toList &&
    (lowerChars u.hostname.toList == u.hostname.toList)) &&
  (match u.port with
   | none => true
   | some p =>
     !p.toList.isEmpty && p.toList.all isDigitChar &&
     !((u.scheme.toList == httpChars && p.toList == ['8', '0']) ||
       (u.scheme.toList == httpsChars && p.toList == ['4', '4', '3']))) &&
  (match u.path.toList with
   | [] => !isSpecialScheme u.scheme.toList
   | c :: _ => c == '/') &&
  (u.path.toList.all goodByte && noneOf ['?', '#'] u.path.toList) &&
  u.query.all
    (fun kv =>
      kv.1.toList.all goodByte && noneOf ['&', '#', '='] kv.1.toList &&
      (match kv.2 with
       | none => true
       | some v => v.toList.all goodByte && noneOf ['&', '#'] v.toList)) &&
  (match u.frag with
   | none => true
   | some f => f.toList.all goodByte)

/-- The structural part of `new URL(s)`: split the pre-cleaned input into
scheme, authority, path, query and fragment, lowercase scheme and host, drop
an empty or default port, and default the path of a special scheme to "/". -/
def parseURLcore (s : String) : Option URLRec :=
  let cs := preClean s.toList
  match splitScheme cs with
  | none => none
  | some (sch, r1) =>
    let a := spanUntil ['/', '?', '#'] r1
    let hp := spanUntil [':'] a.1
    let port0 : Option (List Char) :=
      match hp.2 with
      | ':' :: p => if p.isEmpty then none else some p
      | _ => none
    let schemeL := lowerChars sch
    let pr : List Char × List Char :=
      match a.2 with
      | '/' :: _ => spanUntil ['?', '#'] a.2
      | r2 => (if isSpecialScheme schemeL then ['/'] else [], r2)
    let qr : Option (List Char) × List Char :=
      match pr.2 with
      | '?' :: q => (some (spanUntil ['#'] q).1, (spanUntil ['#'] q).2)
      | r3 => (none, r3)
    let frag : Option (List Char) :=
      match qr.2 with
      | '#' :: f => some f
      | _ => none
    let port1 : Option (List Char) :=
      match port0 with
      | some p =>
        if (schemeL == httpChars && p == ['8', '0']) ||
            (schemeL == httpsChars && p == ['4', '4', '3']) then none
        else some p
      | none => none
    some { scheme := String.mk schemeL
           hostname := String.mk (lowerChars hp.1)
           port := port1.map String.mk
           path := String.mk pr.1
           query := (qr.1.map parseQueryChars).getD []
           frag := frag.map String.mk }

/-- The model of `new URL(s)`: `none` is the constructor throwing (structural
failure or an invalid component). -/
def parseURL (s : String) : Option URLRec :=
  match parseURLcore s with
  | none => none
  | some u => if wfCheckB u then some u else none

def renderQueryPiece (kv : String × Option String) : List Char :=
  match kv.2 with
  | none => kv.1.toList
  | some v => kv.1.toList ++ '=' :: v.toList

/-- `Array.prototype.join` with a one-character separator. -/
def joinSep (d : Char) : List (List Char) → List Char
  | [] => []
  | [p] => p
  | p :: ps => p ++ d :: joinSep d ps

def renderQuery (q : List (String × Option String)) : List Char :=
  match q with
  | [] => []
  | _ => '?' :: joinSep '&' (q.map renderQueryPiece)

/-- Serialization, the model of `URL.prototype.toString` / `href`. -/
def URLRec.render (u : URLRec) : String :=
  String.mk <|
    u.scheme.toList ++ ':' :: '/' :: '/' :: u.hostname.toList ++
      (match u.port with
       | none => []
       | some p => ':' :: p.toList) ++
      u.path.toList ++ renderQuery u.query ++
      (match u.frag with
       | none => []
       | some f => '#' :: f.toList)

/-- The tracking-parameter block list of `cleanUrl`. -/
def dropKeys : List String :=
  ["utm_source", "utm_medium", "utm_campaign", "utm_term", "utm_content",
   "gclid", "fbclid", "mc_cid", "mc_eid", "trk", "ref", "mkt_tok"]

def isDropKey (k : String) : Bool :=
  leadsWith "utm_".toList k.toList || dropKeys.contains k

/-- Does the path end in "/"? -/
def endsSlash (p : String) : Bool :=
  match p.toList.getLast? with
  | some c => c == '/'
  | none => false

/-- `if (url.pathname.length > 1 && url.pathname.endsWith("/")) slice(0,-1)`. -/
def trimOneSlash (p : String) : String :=
  if 1 < p.toList.length ∧ endsSlash p = true then String.mk p.toList.dropLast else p

/-- The field updates `cleanUrl` performs on a successfully parsed URL. -/
def cleanRec (u : URLRec) : URLRec :=
  { u with
    frag := none
    hostname := lowerStr u.hostname
    query := u.query.filter fun kv => !(isDropKey kv.1)
    path := trimOneSlash u.path }

/-- `cleanUrl` (part_002 lines 61-78 and scripts/pull-feeds.mjs lines 38-57):
strip the fragment, lowercase the host, drop tracking parameters, remove one
trailing slash from a non-root path; an unparseable input is returned as-is. -/
def cleanUrl (s : String) : String :=
  match parseURL s with
  | none => s
  | some u => (cleanRec u).render

/-- `cleanUrl` on a possibly null/undefined argument: the catch branch
evaluates `String(u || "")`. -/
def cleanUrlOpt (o : Option String) : String :=
  match o with
  | none => ""
  | some s => cleanUrl s

/-- `sourceFromLink` (part_002 line 80): hostname without a leading "www.",
empty string when the link does not parse. -/
def stripWWW (h : String) : String :=
  if leadsWith "www.".toList h.toList then String.mk (h.toList.drop 4) else h

def sourceFromLink (u : String) : String :=
  match parseURL u with
  | none => ""
  | some r => stripWWW r.hostname

/-- `host` (part_002 line 190): lowercase hostname, empty string on failure. -/
def hostOf (u : String) : String :=
  match parseURL u with
  | none => ""
  | some r => lowerStr r.hostname

/-! ## Dates

A JS date string is either an ISO string produced by
`new Date(t).toISOString()` (constructor `iso`, carrying the millisecond value
`t`, which `Date.parse` recovers exactly) or free text (constructor `text`,
carrying the value `Date.parse` yields on it, `none` for `NaN`). -/

inductive DateStr where
  | iso (ms : Int)
  | text (s : String) (p : Option Int)
deriving DecidableEq, Repr

/-- `Date.parse`, returning `none` for `NaN`. -/
def dparse : DateStr → Option Int
  | .iso t => some t
  | .text _ p => p

/-- JS truthiness of the date string (ISO strings are nonempty). -/
def dateTruthy : DateStr → Bool
  | .iso _ => true
  | .text s _ => s ≠ ""

/-- `SETTINGS.FUTURE_CREATEDAT_SKEW_MIN` (10 minutes) in milliseconds. -/
def skewMs : Int := 10 * 60 * 1000

/-- `SETTINGS.MAX_ITEM_AGE_DAYS` (365) in milliseconds (`days(n)`). -/
def maxAgeMs : Int := 365 * 24 * 60 * 60 * 1000

/-- `SETTINGS.DROP_PAST_DEADLINES` in the part_002 revision. -/
def DROP_PAST_DEADLINES : Bool := false

/-- `SETTINGS.ORIG_CONCURRENCY`. -/
def ORIG_CONCURRENCY : Nat := 4

/-- `SETTINGS.CANON_CONCURRENCY`. -/
def CANON_CONCURRENCY : Nat := 5

/-- `clampFutureISO` (part_002 lines 85-93): null/empty or unparseable input
gives null, otherwise the timestamp is clamped to
`min(t, now + FUTURE_CREATEDAT_SKEW_MIN minutes)` and re-rendered as ISO. -/
def clampFutureISO (now : Int) (o : Option DateStr) : Option DateStr :=
  match o with
  | none => none
  | some d =>
    if dateTruthy d then
      match dparse d with
      | none => none
      | some t => some (.iso (min t (now + skewMs)))
    else none

/-! ## Listing records -/

/-- A listing record as the scripts pass it around; `none` models an absent
(undefined/null) field. -/
structure Item where
  id : Option String := none
  title : Option String := none
  link : Option String := none
  source : Option String := none
  createdAt : Option DateStr := none
  deadline : Option DateStr := none
  prize : Option String := none
  tags : Option (List String) := none
deriving DecidableEq, Repr

/-- Stand-in for the hex SHA-1 digest of `crypto`: an injective deterministic
encoding (only determinism is relied on by the scripts). -/
def sha1 (s : String) : String := "#sha1:" ++ s

/-- JS truthiness of the record's link field. -/
def linkTruthy (it : Item) : Bool := strOr it.link "" ≠ ""

/-- JS truthiness of the record's deadline field. -/
def deadlineTruthy (it : Item) : Bool :=
  match it.deadline with
  | some d => dateTruthy d
  | none => false

/-- `normalizeItem` (part_002 lines 363-375), with the current time `now` as
an explicit argument. -/
def normalizeItem (now : Int) (raw : Item) : Item :=
  let link := cleanUrl (strOr raw.link "")
  let title := collapse (strOr raw.title "")
  let source := strOr raw.source (sourceFromLink link)
  let deadline : Option DateStr :=
    match raw.deadline with
    | some d =>
      if dateTruthy d then
        match dparse d with
        | some t => some (.iso t)
        | none => none
      else none
    | none => none
  let id := if link = "" then sha1 (title ++ "|" ++ source) else link
  { id := some id
    title := some title
    link := some link
    source := some source
    createdAt := clampFutureISO now raw.createdAt
    deadline := deadline
    prize :=
      match raw.prize with
      | some s => if s = "" then none else some s
      | none => none
    tags := some (raw.tags.getD []) }

/-- The deadline transformation inside `normalizeItem`, as its own function. -/
def normDeadline (o : Option DateStr) : Option DateStr :=
  match o with
  | some d =>
    if dateTruthy d then
      match dparse d with
      | some t => some (.iso t)
      | none => none
    else none
  | none => none

/-- The prize transformation inside `normalizeItem`, as its own function. -/
def normPrize (o : Option String) : Option String :=
  match o with
  | some s => if s = "" then none else some s
  | none => none

/-! ## Deduplication (part_002 lines 395-421 and scripts lines 100-119)

JS `Map` is modelled by an association list where `set` replaces in place
(preserving first-insertion key order, as `Map` iteration does). -/

def mapGet : List (String × Item) → String → Option Item
  | [], _ => none
  | kv :: m, k => if kv.1 = k then some kv.2 else mapGet m k

def mapSet : List (String × Item) → String → Item → List (String × Item)
  | [], k, v => [(k, v)]
  | kv :: m, k, v => if kv.1 = k then (k, v) :: m else kv :: mapSet m k v

/-- `scorePrimary(it) >= scorePrimary(prev) ? it : prev`. -/
def pick (sc : Item → Nat) (prev it : Item) : Item :=
  if sc prev ≤ sc it then it else prev

/-- One iteration of a keyed dedupe loop. -/
def gStep (sc : Item → Nat) (f : Item → Option String)
    (m : List (String × Item)) (it : Item) : List (String × Item) :=
  match f it with
  | none => m
  | some k =>
    mapSet m k
      (match mapGet m k with
       | none => it
       | some prev => pick sc prev it)

/-- A whole keyed dedupe pass over `items`. -/
def groupFold (sc : Item → Nat) (f : Item → Option String)
    (items : List Item) : List (String × Item) :=
  items.foldl (gStep sc f) []

/-- `x.title?.length || 0`. -/
def titleLen (x : Item) : Nat := (x.title.getD "").length

/-- JS truthiness of the record's createdAt field. -/
def createdTruthy (x : Item) : Bool :=
  match x.createdAt with
  | some d => dateTruthy d
  | none => false

/-- `scorePrimary` of part_002 line 398, scaled by 1000 so the float
`(x.createdAt ? 2 : 0) + (x.title?.length || 0) / 1000` becomes the natural
number `2000·[createdAt] + title length` (order-isomorphic for all feasible
title lengths). -/
def scorePrimary1000 (x : Item) : Nat :=
  (if createdTruthy x then 2000 else 0) + titleLen x

/-- The `score` of scripts line 102, scaled by 1000:
`(x.deadline ? 3 : 0) + (x.createdAt ? 2 : 0) + (x.title?.length || 0)/1000`. -/
def scoreScripts1000 (x : Item) : Nat :=
  (if deadlineTruthy x then 3000 else 0) + (if createdTruthy x then 2000 else 0) + titleLen x

/-- Pass-1 key: `if (!it.link) continue; const key = cleanUrl(it.link)`. -/
def keyLink (it : Item) : Option String :=
  match it.link with
  | some s => if s = "" then none else some (cleanUrl s)
  | none => none

/-- Pass-2 signature: lowercase "title|source". -/
def sigKey (x : Item) : String :=
  lowerStr (strOr x.title "") ++ "|" ++ lowerStr (strOr x.source "")

def sigSome (x : Item) : Option String := some (sigKey x)

/-- `dedupe` of part_002 lines 395-421: pass 1 keyed by cleaned link over all
linked records, pass 2 keyed by the (title, source) signature over the pass-1
survivors only. -/
def dedupe (items : List Item) : List Item :=
  let out := (groupFold scorePrimary1000 keyLink items).map fun kv => kv.2
  (groupFold scorePrimary1000 sigSome out).map fun kv => kv.2

/-- `dedupe` of scripts/pull-feeds.mjs lines 100-119: pass 1 keyed by cleaned
link; then every linkless record is appended when its signature has not been
seen among the pass-1 survivors or earlier linkless records. -/
def dedupeScripts (items : List Item) : List Item :=
  let withLinks := (groupFold scoreScripts1000 keyLink items).map fun kv => kv.2
  let noLinks := items.filter fun x => !(linkTruthy x)
  (noLinks.foldl
    (fun acc it =>
      if acc.2.contains (sigKey it) then acc
      else (acc.1 ++ [it], acc.2 ++ [sigKey it]))
    (withLinks, withLinks.map sigKey)).1

/-! ## Freshness filter (part_002 lines 376-392) -/

def isPast (now : Int) (o : Option DateStr) : Bool :=
  match o with
  | none => false
  | some d =>
    if dateTruthy d then
      match dparse d with
      | some t => t < now
      | none => false
    else false

def isVeryOld (now : Int) (o : Option DateStr) : Bool :=
  match o with
  | none => false
  | some d =>
    if dateTruthy d then
      match dparse d with
      | some t => t < now - maxAgeMs
      | none => false
    else false

def freshnessFilter (now : Int) (item : Item) : Bool :=
  if DROP_PAST_DEADLINES && isPast now item.deadline then false
  else if !(deadlineTruthy item) && isVeryOld now item.createdAt then false
  else true

/-! ## Final sort (part_002 lines 671-677) -/

/-- `a.createdAt ? Date.parse(a.createdAt) : 0` (in the pipeline `createdAt`
is null or a valid ISO string, so the parse never yields `NaN`). -/
def keyTime (it : Item) : Int :=
  match it.createdAt with
  | some d => if dateTruthy d then (dparse d).getD 0 else 0
  | none => 0

/-- Lexicographic code-point comparison, the model of
`String.prototype.localeCompare` returning `<= 0`. -/
def lexLe : List Char → List Char → Bool
  | [], _ => true
  | _ :: _, [] => false
  | a :: as, b :: bs =>
    if a.toNat < b.toNat then true
    else if b.toNat < a.toNat then false
    else lexLe as bs

def strLeB (a b : String) : Bool := lexLe a.toList b.toList

/-- "a may precede b" under the comparator of part_002 lines 672-677. -/
def catLe (a b : Item) : Bool :=
  if keyTime a = keyTime b then strLeB (strOr a.title "") (strOr b.title "")
  else decide (keyTime b < keyTime a)

/-- Stable insertion of `x` after every already-placed record that may
precede it. -/
def insertCat (x : Item) : List Item → List Item
  | [] => [x]
  | y :: ys => if catLe y x then y :: insertCat x ys else x :: y :: ys

/-- The final `filtered.sort(...)`: a stable sort by the comparator (ES2019
requires sort stability; any stable sort computes the same list). -/
def sortCatalog (l : List Item) : List Item :=
  l.foldl (fun acc x => insertCat x acc) []

/-- "a may precede b" under the comparator of scripts/pull-feeds.mjs lines
364-368: `(tb || 0) - (ta || 0)`, `createdAt` descending with no tie-break. -/
def catLeScripts (a b : Item) : Bool := keyTime b ≤ keyTime a

/-- Stable insertion under the scripts comparator. -/
def insertCatS (x : Item) : List Item → List Item
  | [] => [x]
  | y :: ys => if catLeScripts y x then y :: insertCatS x ys else x :: y :: ys

/-- The scripts revision's `filtered.sort(...)`: the same stable sort under
its time-only comparator. -/
def sortCatalogScripts (l : List Item) : List Item :=
  l.foldl (fun acc x => insertCatS x acc) []

/-! ## Bounded worker pools (part_002 lines 156-178 and 324-349)

The shared cursor `let i = 0; const idx = i++` and the pre-sized `results`
array are modelled as explicit state; an execution is a list of events, each
either a worker claiming the next index (exiting when the cursor has passed
the end) or a worker finishing its claimed index.  The per-item work is a pure
function `g` (the network round-trip is an oracle folded into `g`). -/

structure PoolState where
  cursor : Nat
  claimed : List (Option Nat)
  results : List (Option Item)
  done : List Bool
deriving DecidableEq, Repr

inductive PEvent where
  | claim (w : Nat)
  | write (w : Nat)
deriving DecidableEq, Repr

def poolInit (W n : Nat) : PoolState :=
  ⟨0, List.replicate W none, List.replicate n none, List.replicate W false⟩

def applyEvent (g : Item → Item) (items : List Item) (s : PoolState) :
    PEvent → Option PoolState
  | .claim w =>
    match s.done[w]?, s.claimed[w]? with
    | some false, some none =>
      if s.cursor < items.length then
        some { s with cursor := s.cursor + 1, claimed := s.claimed.set w (some s.cursor) }
      else
        some { s with cursor := s.cursor + 1, done := s.done.set w true }
    | _, _ => none
  | .write w =>
    match s.claimed[w]? with
    | some (some idx) =>
      match items[idx]? with
      | some it =>
        some { s with claimed := s.claimed.set w none,
                      results := s.results.set idx (some (g it)) }
      | none => none
    | _ => none

/-- Run a pool of `W` workers over `items` along the event schedule `evs`;
`none` means the schedule was not a possible execution. -/
def runPool (W : Nat) (g : Item → Item) (items : List Item) (evs : List PEvent) :
    Option PoolState :=
  evs.foldl (fun os e => os.bind fun s => applyEvent g items s e)
    (some (poolInit W items.length))

/-- Every worker has exited its loop. -/
def allDone (s : PoolState) : Prop := ∀ b ∈ s.done, b = true

/-- `KNOWN_AGGREGATORS` (part_002 lines 34-41). -/
def KNOWN_AGGREGATORS : List String :=
  ["contest.co.nz", "www.contest.co.nz", "competitions.co.nz",
   "www.competitions.co.nz", "cheapies.nz", "www.cheapies.nz"]

/-- The per-record body of `canonicalizeAll` (part_002 lines 166-172);
`resolvePrimary` is the network oracle standing for `resolveCanonicalOnce`
(which on any failure degrades to `cleanUrl(link)`). -/
def canonStep (resolvePrimary : String → String) (it : Item) : Item :=
  match it.link with
  | some l =>
    if l ≠ "" then
      let primary := resolvePrimary l
      { it with link := some primary
                source :=
                  if sourceFromLink primary = "" then it.source
                  else some (sourceFromLink primary) }
    else it
  | none => it

/-- The per-record body of `upgradeAggregatorsToOriginals` (part_002 lines
331-343); `findOriginal` is the oracle standing for
`findOriginalForAggregator` (failure or no candidate is `none`). -/
def upgradeStep (findOriginal : String → Option String) (it : Item) : Item :=
  if KNOWN_AGGREGATORS.contains (hostOf (strOr it.link "")) then
    match findOriginal (strOr it.link "") with
    | some orig =>
      { it with link := some orig
                source :=
                  if sourceFromLink orig = "" then it.source
                  else some (sourceFromLink orig) }
    | none => it
  else it

/-! ## The run driver (part_002 lines 610-709) -/

structure SiteCfg where
  site : String := ""
  index : String := ""
deriving DecidableEq, Repr

structure SourcesDoc where
  rss : List String := []
  sites : List SiteCfg := []
deriving DecidableEq, Repr

inductive REvent where
  | fetchFeed (url : String)
  | crawlSite (index : String)
  | writeCatalog
  | writeHealth
deriving DecidableEq, Repr

structure HealthCounts where
  raw : Nat
  normalized : Nat
  upgraded : Nat
  canonicalized : Nat
  deduped : Nat
  kept : Nat
deriving DecidableEq, Repr

inductive RunResult where
  | exitConfig
  | ok (catalog : List Item) (counts : HealthCounts)
deriving DecidableEq, Repr

/-- The data transformation of `main` after the sources are loaded (part_002
lines 645-677), with the two worker pools replaced by their per-index
functional behavior (justified by the pool theorem below). -/
def pipelineKept (now : Int) (findOriginal : String → Option String)
    (resolvePrimary : String → String) (raw : List Item) : List Item :=
  sortCatalog
    ((dedupe (((raw.map (normalizeItem now)).map (upgradeStep findOriginal)).map
        (canonStep resolvePrimary))).filter (freshnessFilter now))

/-- `main` of part_002 lines 611-709.  `cfg = none` is the catch branch of
reading `sources.json` (missing or invalid JSON): it logs and calls
`process.exit(1)` before any fetch and before either artifact is written.
On success the emitted events record the outward effects in program order. -/
def runMain (cfg : Option SourcesDoc) (feedFetch : String → List Item)
    (siteFetch : SiteCfg → List Item) (findOriginal : String → Option String)
    (resolvePrimary : String → String) (now : Int) : List REvent × RunResult :=
  match cfg with
  | none => ([], .exitConfig)
  | some c =>
    let rssResults := (c.rss.map feedFetch).flatten
    let siteResults := (c.sites.map siteFetch).flatten
    let raw := rssResults ++ siteResults
    let normalized := raw.map (normalizeItem now)
    let upgraded := normalized.map (upgradeStep findOriginal)
    let canonicalized := upgraded.map (canonStep resolvePrimary)
    let deduped := dedupe canonicalized
    let filtered := deduped.filter (freshnessFilter now)
    (c.rss.map .fetchFeed ++ c.sites.map (fun s => .crawlSite s.index) ++
       [.writeCatalog, .writeHealth],
     .ok (sortCatalog filtered)
       ⟨raw.length, normalized.length, upgraded.length, canonicalized.length,
        deduped.length, filtered.length⟩)

/-! ## `loadSources` of the intermediate revision (part_002 lines 997-1025) -/

structure SiteCfg2 where
  site : String := ""
  index : String := ""
  max_pages : Nat := 1
  item_selector : String := ""
  title_selector : String := ""
  source : String := ""
  throttle_ms : Nat := 0
  index_limit : Nat := 0
deriving DecidableEq, Repr

structure SourcesDoc2 where
  rss : List String := []
  sites : List SiteCfg2 := []
deriving DecidableEq, Repr

/-- The built-in NZMCD example configuration the intermediate revision falls
back to when `sources.json` is missing or invalid. -/
def builtinNZMCD : SourcesDoc2 :=
  { rss := []
    sites := [{ site := "nzmcd.co.nz"
                index := "https://nzmcd.co.nz/competitions/"
                max_pages := 1
                item_selector := "a[href*=\"/competitions/\"]:not([href$=\"/competitions/\"]):not([href*=\"/competitions/page/\"])"
                title_selector := "h1"
                source := "NZMCD"
                throttle_ms := 200
                index_limit := 12 }] }

/-- `loadSources` of part_002 lines 997-1025: `parsed = none` is the catch
branch (file missing or invalid JSON), which substitutes the built-in example
instead of aborting. -/
def loadSources2 (parsed : Option SourcesDoc2) : SourcesDoc2 :=
  match parsed with
  | some c => c
  | none => builtinNZMCD

/-! ## Proof-infrastructure definitions -/

/-- The two entry keys of distinct positions differ. -/
def keysNe (a b : String × Item) : Prop := a.1 ≠ b.1

/-- Foldl of the `pick` selection over a group, starting from `acc`. -/
def pickFoldAcc (sc : Item → Nat) (acc : Option Item) (l : List Item) : Option Item :=
  l.foldl
    (fun a it =>
      some
        (match a with
         | none => it
         | some prev => pick sc prev it))
    acc

/-- The running maximum of the score over a list (0 for the empty list). -/
def maxScoreBy (sc : Item → Nat) (l : List Item) : Nat :=
  l.foldl (fun a x => max a (sc x)) 0

/-- The execution invariant of a bounded worker pool. -/
structure PoolInv (W : Nat) (g : Item → Item) (items : List Item)
    (s : PoolState) : Prop where
  lenR : s.results.length = items.length
  lenC : s.claimed.length = W
  lenD : s.done.length = W
  claimedOk : ∀ (w idx : Nat), s.claimed[w]? = some (some idx) →
    idx < items.length ∧ idx < s.cursor ∧ s.results[idx]? = some none
  claimedNe : ∀ (w1 w2 idx : Nat), w1 ≠ w2 → s.claimed[w1]? = some (some idx) →
    s.claimed[w2]? ≠ some (some idx)
  resDone : ∀ (idx : Nat) (it : Item), idx < s.cursor → items[idx]? = some it →
    (∀ w : Nat, s.claimed[w]? ≠ some (some idx)) →
    s.results[idx]? = some (some (g it))
  resNone : ∀ idx : Nat, s.cursor ≤ idx → idx < items.length →
    s.results[idx]? = some none
  doneCur : ∀ w : Nat, s.done[w]? = some true → items.length ≤ s.cursor
  doneNoClaim : ∀ w : Nat, s.done[w]? = some true → s.claimed[w]? = some none

/-! ## Serialization segments (used to reason about reparsing) -/

/-- The characters the port contributes to a serialized URL. -/
def urlPortChars (u : URLRec) : List Char :=
  match u.port with
  | none => []
  | some p => ':' :: p.toList

/-- The characters the fragment contributes to a serialized URL. -/
def urlFragChars (u : URLRec) : List Char :=
  match u.frag with
  | none => []
  | some f => '#' :: f.toList

/-- Everything after the authority in a serialized URL. -/
def urlRest (u : URLRec) : List Char :=
  u.path.toList ++ (renderQuery u.query ++ urlFragChars u)

/-- Everything after `scheme://` in a serialized URL. -/
def urlTail (u : URLRec) : List Char :=
  u.hostname.toList ++ (urlPortChars u ++ urlRest u)

/-- The per-pair condition `wfCheckB` imposes on the query. -/
def queryPairOk (kv : String × Option String) : Bool :=
  kv.1.toList.all goodByte && noneOf ['&', '#', '='] kv.1.toList &&
  (match kv.2 with
   | none => true
   | some v => v.toList.all goodByte && noneOf ['&', '#'] v.toList)

/-- The raw query text of a record, `none` when the query is empty. -/
def qOptChars (u : URLRec) : Option (List Char) :=
  match u.query with
  | [] => none
  | _ => some (joinSep '&' (u.query.map renderQueryPiece))

/-! ## Basic character and string lemmas -/

theorem charToNatOfNat (n : Nat) (h : n < 55296) : (Char.ofNat n).toNat = n := by
  have hv : Nat.isValidChar n := Or.inl h
  simp only [Char.ofNat, hv, dif_pos, Char.ofNatAux, Char.toNat, UInt32.ofNat',
    UInt32.toNat, BitVec.toNat_ofNatLt]

theorem charToNatInj {a b : Char} (h : a.toNat = b.toNat) : a = b := by
  apply Char.ext
  apply UInt32.eq_of_toBitVec_eq
  exact BitVec.eq_of_toNat_eq h

theorem toList_mk (l : List Char) : (String.mk l).toList = l := rfl

theorem mk_toList (s : String) : String.mk s.toList = s := rfl

theorem lowChar_toNat (c : Char) :
    (lowChar c).toNat = if 65 ≤ c.toNat ∧ c.toNat ≤ 90 then c.toNat + 32 else c.toNat := by
  unfold lowChar
  split
  · next h => exact charToNatOfNat _ (by omega)
  · rfl

theorem lowChar_idem (c : Char) : lowChar (lowChar c) = lowChar c := by
  apply charToNatInj
  rw [lowChar_toNat (lowChar c), lowChar_toNat c]
  by_cases h1 : 65 ≤ c.toNat ∧ c.toNat ≤ 90
  · rw [if_pos h1, if_neg (by omega)]
  · rw [if_neg h1, if_neg h1]

theorem lowerChars_idem (l : List Char) : lowerChars (lowerChars l) = lowerChars l := by
  unfold lowerChars
  rw [List.map_map]
  exact List.map_congr_left fun c _ => lowChar_idem c

theorem lowerStr_idem (s : String) : lowerStr (lowerStr s) = lowerStr s := by
  unfold lowerStr
  rw [toList_mk, lowerChars_idem]

/-! ## Facts about `strOr` (the `x || ""` pattern) -/

theorem strOr_empty {o : Option String} {d : String} (h : strOr o d = "") : d = "" := by
  cases o with
  | none => exact h
  | some s =>
    by_cases hs : s = ""
    · have he : strOr (some s) d = d := by
        show (if s = "" then d else s) = d
        rw [if_pos hs]
      rw [he] at h
      exact h
    · have he : strOr (some s) d = s := by
        show (if s = "" then d else s) = s
        rw [if_neg hs]
      rw [he] at h
      exact absurd h hs

theorem strOr_some_empty (x : String) : strOr (some x) "" = x := by
  show (if x = "" then "" else x) = x
  by_cases hx : x = ""
  · rw [if_pos hx, hx]
  · rw [if_neg hx]

theorem strOr_absorb (o : Option String) (d : String) :
    strOr (some (strOr o d)) d = strOr o d := by
  show (if strOr o d = "" then d else strOr o d) = strOr o d
  by_cases hx : strOr o d = ""
  · rw [if_pos hx, hx]
    exact strOr_empty hx
  · rw [if_neg hx]

/-! ## C10 — totality of the URL cleaner -/

/-- C10: `cleanUrl` is total on strings. In the model this is its type; the
behavioral content is that an input that does not parse as a URL (the `catch`
branch) is returned unchanged, and a null/undefined input yields `""`
(`String(u || "")`). -/
theorem cleanUrl_total_unparsed :
    (∀ s : String, parseURL s = none → cleanUrl s = s) ∧ cleanUrlOpt none = "" := by
  constructor
  · intro s h
    unfold cleanUrl
    rw [h]
  · rfl

/-- Witness for C10 at the concrete non-URL input "not a url". -/
theorem cleanUrl_total_unparsed_witness :
    parseURL "not a url" = none ∧ cleanUrl "not a url" = "not a url" ∧ cleanUrlOpt none = "" :=
  ⟨by decide, cleanUrl_total_unparsed.1 "not a url" (by decide), cleanUrl_total_unparsed.2⟩

/-! ## C7 — configuration failure -/

/-- C7 (amended): in the part_002 run driver a missing/invalid `sources.json`
terminates the run (`process.exit(1)`) with no network event and neither
artifact written, while a loaded configuration always produces a non-failure
outcome that writes both the catalog and the health report.  (The intermediate
revision instead substitutes a built-in fallback configuration: see the
counterexample.) -/
theorem runMain_configFailure :
    (∀ (ff : String → List Item) (sf : SiteCfg → List Item)
        (fo : String → Option String) (rp : String → String) (now : Int),
        runMain none ff sf fo rp now = ([], RunResult.exitConfig)) ∧
    (∀ (c : SourcesDoc) (ff : String → List Item) (sf : SiteCfg → List Item)
        (fo : String → Option String) (rp : String → String) (now : Int),
        (runMain (some c) ff sf fo rp now).2 ≠ RunResult.exitConfig ∧
        REvent.writeCatalog ∈ (runMain (some c) ff sf fo rp now).1 ∧
        REvent.writeHealth ∈ (runMain (some c) ff sf fo rp now).1) := by
  constructor
  · intro ff sf fo rp now
    rfl
  · intro c ff sf fo rp now
    refine ⟨by simp [runMain], ?_, ?_⟩ <;>
      · simp only [runMain]
        refine List.mem_append.mpr (Or.inr ?_)
        simp

/-- Counterexample for C7 as stated: the intermediate revision's
`loadSources` substitutes the built-in NZMCD example configuration when
`sources.json` is missing or invalid, rather than aborting with nothing. -/
theorem loadSources2_fallback :
    loadSources2 none = builtinNZMCD ∧ builtinNZMCD.sites ≠ [] :=
  ⟨rfl, by decide⟩

/-! ## Association-list (JS Map) lemmas -/

theorem mapGet_mapSet_self (m : List (String × Item)) (k : String) (v : Item) :
    mapGet (mapSet m k v) k = some v := by
  induction m with
  | nil => simp [mapSet, mapGet]
  | cons kv m ih =>
    by_cases h : kv.1 = k
    · simp [mapSet, h, mapGet]
    · simp [mapSet, h, mapGet, ih]

theorem mapGet_mapSet_ne (m : List (String × Item)) (k : String) (v : Item)
    (k2 : String) (h : k ≠ k2) : mapGet (mapSet m k v) k2 = mapGet m k2 := by
  induction m with
  | nil => simp [mapSet, mapGet, h]
  | cons kv m ih =>
    by_cases hk : kv.1 = k
    · have e1 : mapSet (kv :: m) k v = (k, v) :: m := by simp [mapSet, hk]
      have hk2 : kv.1 ≠ k2 := by rw [hk]; exact h
      rw [e1]
      have e2 : mapGet ((k, v) :: m) k2 = mapGet m k2 := by simp [mapGet, h]
      have e3 : mapGet (kv :: m) k2 = mapGet m k2 := by simp [mapGet, hk2]
      rw [e2, e3]
    · have e1 : mapSet (kv :: m) k v = kv :: mapSet m k v := by simp [mapSet, hk]
      rw [e1]
      by_cases h2 : kv.1 = k2
      · simp [mapGet, h2]
      · simp [mapGet, h2, ih]

theorem mem_mapSet (m : List (String × Item)) (k : String) (v : Item) :
    ∀ kv ∈ mapSet m k v, kv = (k, v) ∨ kv ∈ m := by
  induction m with
  | nil => simp [mapSet]
  | cons kv0 m ih =>
    intro kv hkv
    by_cases h : kv0.1 = k
    · simp only [mapSet, if_pos h] at hkv
      rcases List.mem_cons.mp hkv with h1 | h1
      · exact Or.inl h1
      · exact Or.inr (List.mem_cons_of_mem _ h1)
    · simp only [mapSet, if_neg h] at hkv
      rcases List.mem_cons.mp hkv with h1 | h1
      · exact Or.inr (h1 ▸ List.mem_cons_self _ _)
      · rcases ih kv h1 with h2 | h2
        · exact Or.inl h2
        · exact Or.inr (List.mem_cons_of_mem _ h2)

theorem mapGet_mem (m : List (String × Item)) (k : String) (v : Item)
    (h : mapGet m k = some v) : (k, v) ∈ m := by
  induction m with
  | nil => simp [mapGet] at h
  | cons kv m ih =>
    by_cases hk : kv.1 = k
    · simp only [mapGet, if_pos hk] at h
      have : kv = (k, v) := by
        obtain ⟨k1, v1⟩ := kv
        simp_all
      exact this ▸ List.mem_cons_self _ _
    · simp only [mapGet, if_neg hk] at h
      exact List.mem_cons_of_mem _ (ih h)

theorem pick_cases (sc : Item → Nat) (prev it : Item) :
    pick sc prev it = prev ∨ pick sc prev it = it := by
  unfold pick
  split
  · exact Or.inr rfl
  · exact Or.inl rfl

/-! ## Keyed-pass invariants -/

/-- Every value in a keyed pass comes from the initial map or the input. -/
theorem groupFold_val_prop (sc : Item → Nat) (f : Item → Option String)
    (S : Item → Prop) :
    ∀ (items : List Item) (m : List (String × Item)),
      (∀ kv ∈ m, S kv.2) → (∀ it ∈ items, S it) →
      ∀ kv ∈ items.foldl (gStep sc f) m, S kv.2 := by
  intro items
  induction items with
  | nil =>
    intro m hm _ kv hkv
    exact hm kv hkv
  | cons it items ih =>
    intro m hm hits kv hkv
    rw [List.foldl_cons] at hkv
    refine ih (gStep sc f m it) ?_ (fun x hx => hits x (List.mem_cons_of_mem _ hx)) kv hkv
    intro kv2 hkv2
    unfold gStep at hkv2
    cases hf : f it with
    | none =>
      rw [hf] at hkv2
      exact hm kv2 hkv2
    | some k =>
      rw [hf] at hkv2
      rcases mem_mapSet _ _ _ kv2 hkv2 with h | h
      · rw [h]
        cases hmg : mapGet m k with
        | none => simp only [hmg]; exact hits it (List.mem_cons_self _ _)
        | some prev =>
          simp only [hmg]
          rcases pick_cases sc prev it with hp | hp
          · rw [hp]
            exact hm (k, prev) (mapGet_mem m k prev hmg)
          · rw [hp]
            exact hits it (List.mem_cons_self _ _)
      · exact hm kv2 h

/-- Every entry in a keyed pass has the key its value maps to. -/
theorem groupFold_key_inv (sc : Item → Nat) (f : Item → Option String) :
    ∀ (items : List Item) (m : List (String × Item)),
      (∀ kv ∈ m, f kv.2 = some kv.1) →
      ∀ kv ∈ items.foldl (gStep sc f) m, f kv.2 = some kv.1 := by
  intro items
  induction items with
  | nil =>
    intro m hm kv hkv
    exact hm kv hkv
  | cons it items ih =>
    intro m hm kv hkv
    rw [List.foldl_cons] at hkv
    refine ih (gStep sc f m it) ?_ kv hkv
    intro kv2 hkv2
    unfold gStep at hkv2
    cases hf : f it with
    | none =>
      rw [hf] at hkv2
      exact hm kv2 hkv2
    | some k =>
      rw [hf] at hkv2
      rcases mem_mapSet _ _ _ kv2 hkv2 with h | h
      · rw [h]
        cases hmg : mapGet m k with
        | none => simpa using hf
        | some prev =>
          simp only [hmg]
          rcases pick_cases sc prev it with hp | hp
          · rw [hp]
            simpa using hm (k, prev) (mapGet_mem m k prev hmg)
          · rw [hp]
            simpa using hf
      · exact hm kv2 h

theorem pairwise_mapSet (m : List (String × Item)) (k : String) (v : Item)
    (h : m.Pairwise keysNe) : (mapSet m k v).Pairwise keysNe := by
  induction m with
  | nil => simp [mapSet, keysNe]
  | cons kv m ih =>
    rcases List.pairwise_cons.mp h with ⟨hhead, htail⟩
    by_cases hk : kv.1 = k
    · simp only [mapSet, if_pos hk]
      refine List.pairwise_cons.mpr ⟨?_, htail⟩
      intro b hb
      show k ≠ b.1
      rw [← hk]
      exact hhead b hb
    · simp only [mapSet, if_neg hk]
      refine List.pairwise_cons.mpr ⟨?_, ih htail⟩
      intro b hb
      rcases mem_mapSet m k v b hb with h1 | h1
      · rw [h1]
        exact hk
      · exact hhead b h1

theorem groupFold_pairwise (sc : Item → Nat) (f : Item → Option String) :
    ∀ (items : List Item) (m : List (String × Item)),
      m.Pairwise keysNe → (items.foldl (gStep sc f) m).Pairwise keysNe := by
  intro items
  induction items with
  | nil =>
    intro m hm
    exact hm
  | cons it items ih =>
    intro m hm
    rw [List.foldl_cons]
    refine ih _ ?_
    unfold gStep
    cases f it with
    | none => exact hm
    | some k => exact pairwise_mapSet m k _ hm

theorem pairwise_keys_eq (m : List (String × Item)) (h : m.Pairwise keysNe)
    (k : String) (a b : Item) (ha : (k, a) ∈ m) (hb : (k, b) ∈ m) : a = b := by
  induction m with
  | nil => simp at ha
  | cons kv m ih =>
    rcases List.pairwise_cons.mp h with ⟨hhead, htail⟩
    rcases List.mem_cons.mp ha with h1 | h1 <;> rcases List.mem_cons.mp hb with h2 | h2
    · rw [← h1] at h2
      exact congrArg Prod.snd h2.symm
    · exact absurd (show kv.1 = k from congrArg Prod.fst h1.symm) (hhead (k, b) h2)
    · exact absurd (show kv.1 = k from congrArg Prod.fst h2.symm) (hhead (k, a) h1)
    · exact ih htail h1 h2

/-! ## The per-key winner of a keyed pass -/

theorem mapGet_groupFold (sc : Item → Nat) (f : Item → Option String) :
    ∀ (items : List Item) (m : List (String × Item)) (k : String),
      mapGet (items.foldl (gStep sc f) m) k =
        pickFoldAcc sc (mapGet m k) (items.filter fun it => f it == some k) := by
  intro items
  induction items with
  | nil =>
    intro m k
    rfl
  | cons it items ih =>
    intro m k
    rw [List.foldl_cons]
    cases hf : f it with
    | none =>
      have hfil : List.filter (fun x => f x == some k) (it :: items) =
          List.filter (fun x => f x == some k) items := by
        rw [List.filter_cons]
        simp [hf]
      rw [hfil, ih (gStep sc f m it) k]
      have hg : gStep sc f m it = m := by simp [gStep, hf]
      rw [hg]
    | some k2 =>
      by_cases hk : k2 = k
      · subst hk
        have hfil : List.filter (fun x => f x == some k2) (it :: items) =
            it :: List.filter (fun x => f x == some k2) items := by
          rw [List.filter_cons]
          simp [hf]
        rw [hfil, ih (gStep sc f m it) k2]
        have hg : gStep sc f m it =
            mapSet m k2
              (match mapGet m k2 with
               | none => it
               | some prev => pick sc prev it) := by
          simp [gStep, hf]
        rw [hg, mapGet_mapSet_self]
        rfl
      · have hfil : List.filter (fun x => f x == some k) (it :: items) =
            List.filter (fun x => f x == some k) items := by
          rw [List.filter_cons]
          simp [hf, hk]
        rw [hfil, ih (gStep sc f m it) k]
        have hg : gStep sc f m it =
            mapSet m k2
              (match mapGet m k2 with
               | none => it
               | some prev => pick sc prev it) := by
          simp [gStep, hf]
        rw [hg, mapGet_mapSet_ne m k2 _ k hk]

theorem pickFoldAcc_append_one (sc : Item → Nat) (acc : Option Item)
    (g : List Item) (a : Item) :
    pickFoldAcc sc acc (g ++ [a]) =
      some
        (match pickFoldAcc sc acc g with
         | none => a
         | some prev => pick sc prev a) := by
  unfold pickFoldAcc
  rw [List.foldl_append]
  rfl

theorem maxScoreBy_append_one (sc : Item → Nat) (g : List Item) (a : Item) :
    maxScoreBy sc (g ++ [a]) = max (maxScoreBy sc g) (sc a) := by
  unfold maxScoreBy
  rw [List.foldl_append]
  rfl

/-- The fold of `pick` over a group selects the last element attaining the
maximal score (`>=` lets a later element displace an equal-scored earlier
one). -/
theorem pickFoldAcc_none (sc : Item → Nat) (g : List Item) :
    pickFoldAcc sc none g =
      (g.reverse).find? (fun x => sc x == maxScoreBy sc g) ∧
    (g ≠ [] → ∃ r, pickFoldAcc sc none g = some r ∧ sc r = maxScoreBy sc g) := by
  induction g using List.reverseRecOn with
  | nil => exact ⟨rfl, fun h => absurd rfl h⟩
  | append_singleton g a ih =>
    rcases ih with ⟨ih1, ih2⟩
    rw [pickFoldAcc_append_one, maxScoreBy_append_one, List.reverse_append]
    by_cases hg : g = []
    · subst hg
      simp only [pickFoldAcc, List.foldl_nil] at ih1 ⊢
      constructor
      · simp [maxScoreBy]
      · intro _
        exact ⟨a, rfl, by simp [maxScoreBy]⟩
    · rcases ih2 hg with ⟨r, hr1, hr2⟩
      rw [hr1]
      by_cases hle : sc r ≤ sc a
      · have hmax : max (maxScoreBy sc g) (sc a) = sc a := by omega
        rw [hmax]
        constructor
        · show some (pick sc r a) = List.find? _ (a :: g.reverse)
          rw [List.find?_cons]
          have : (sc a == sc a) = true := by simp
          rw [this]
          unfold pick
          rw [if_pos hle]
        · intro _
          refine ⟨a, ?_, rfl⟩
          show some (pick sc r a) = some a
          unfold pick
          rw [if_pos hle]
      · have hlt : sc a < sc r := by omega
        have hmax : max (maxScoreBy sc g) (sc a) = maxScoreBy sc g := by omega
        rw [hmax]
        constructor
        · show some (pick sc r a) = List.find? _ (a :: g.reverse)
          rw [List.find?_cons]
          have : (sc a == maxScoreBy sc g) = false := by
            simp only [beq_eq_false_iff_ne, ne_eq]
            omega
          rw [this]
          unfold pick
          rw [if_neg hle, ← hr1, ih1]
        · intro _
          refine ⟨r, ?_, hr2⟩
          show some (pick sc r a) = some r
          unfold pick
          rw [if_neg hle]

/-! ## C1 — order-(in)dependence and the tie-break of the Deduplicator -/

/-- C1 (amended): in each pass of `dedupe` the survivor stored for a key is
the record of maximal score among the group's records in arrival order, with
ties broken in favour of the LAST-seen record (the code keeps the newcomer on
`scorePrimary(it) >= scorePrimary(prev)`); hence the output set is invariant
under permutations of the input only up to score ties within a group.  Pass 1
groups by cleaned link (`keyLink`); pass 2 groups the pass-1 survivors by the
lowercase (title, source) signature. -/
theorem dedupe_group_winner (items : List Item) (k : String) :
    mapGet (groupFold scorePrimary1000 keyLink items) k =
      ((items.filter fun it => keyLink it == some k).reverse).find?
        (fun x =>
          scorePrimary1000 x ==
            maxScoreBy scorePrimary1000 (items.filter fun it => keyLink it == some k)) ∧
    mapGet
        (groupFold scorePrimary1000 sigSome
          ((groupFold scorePrimary1000 keyLink items).map fun kv => kv.2)) k =
      ((((groupFold scorePrimary1000 keyLink items).map fun kv => kv.2).filter
            fun it => sigSome it == some k).reverse).find?
        (fun x =>
          scorePrimary1000 x ==
            maxScoreBy scorePrimary1000
              (((groupFold scorePrimary1000 keyLink items).map fun kv => kv.2).filter
                fun it => sigSome it == some k)) := by
  constructor
  · rw [show groupFold scorePrimary1000 keyLink items =
        items.foldl (gStep scorePrimary1000 keyLink) [] from rfl,
      mapGet_groupFold]
    exact (pickFoldAcc_none scorePrimary1000 _).1
  · rw [show ∀ l, groupFold scorePrimary1000 sigSome l =
        l.foldl (gStep scorePrimary1000 sigSome) [] from fun _ => rfl,
      mapGet_groupFold]
    exact (pickFoldAcc_none scorePrimary1000 _).1

/-- Counterexample for C1 as stated: two distinct records with the same
cleaned link and equal scores (they differ only in `deadline`, which
`scorePrimary` ignores).  The survivor is the last-seen record, not the
first-seen one, and permuting the input changes the surviving set. -/
theorem dedupe_tie_counterexample :
    dedupe
        [{ title := some "t", link := some "https://a.com/x",
           createdAt := some (.iso 0), deadline := some (.iso 5) },
         { title := some "t", link := some "https://a.com/x",
           createdAt := some (.iso 0), deadline := some (.iso 6) }] =
      [{ title := some "t", link := some "https://a.com/x",
         createdAt := some (.iso 0), deadline := some (.iso 6) }] ∧
    dedupe
        [{ title := some "t", link := some "https://a.com/x",
           createdAt := some (.iso 0), deadline := some (.iso 6) },
         { title := some "t", link := some "https://a.com/x",
           createdAt := some (.iso 0), deadline := some (.iso 5) }] =
      [{ title := some "t", link := some "https://a.com/x",
         createdAt := some (.iso 0), deadline := some (.iso 5) }] ∧
    ({ title := some "t", link := some "https://a.com/x",
       createdAt := some (.iso 0), deadline := some (.iso 5) } : Item) ≠
      { title := some "t", link := some "https://a.com/x",
        createdAt := some (.iso 0), deadline := some (.iso 6) } := by
  refine ⟨by decide, by decide, by decide⟩

/-! ## C2 — records with no link -/

theorem dedupeScripts_step_rep (acc : List Item × List String) (it : Item)
    (h : ∀ s ∈ acc.2, ∃ q ∈ acc.1, sigKey q = s) :
    ∀ s ∈ (if acc.2.contains (sigKey it) then acc
            else (acc.1 ++ [it], acc.2 ++ [sigKey it])).2,
      ∃ q ∈ (if acc.2.contains (sigKey it) then acc
              else (acc.1 ++ [it], acc.2 ++ [sigKey it])).1,
        sigKey q = s := by
  by_cases hc : acc.2.contains (sigKey it)
  · rw [if_pos hc]
    exact h
  · rw [if_neg hc]
    intro s hs
    rcases List.mem_append.mp hs with h1 | h1
    · rcases h s h1 with ⟨q, hq1, hq2⟩
      exact ⟨q, List.mem_append_left _ hq1, hq2⟩
    · refine ⟨it, List.mem_append_right _ (List.mem_singleton.mpr rfl), ?_⟩
      rw [List.mem_singleton.mp h1]

theorem dedupeScripts_fold_rep (l : List Item) :
    ∀ (acc : List Item × List String),
      (∀ s ∈ acc.2, ∃ q ∈ acc.1, sigKey q = s) →
      ∀ s ∈ (l.foldl
          (fun acc it =>
            if acc.2.contains (sigKey it) then acc
            else (acc.1 ++ [it], acc.2 ++ [sigKey it])) acc).2,
        ∃ q ∈ (l.foldl
            (fun acc it =>
              if acc.2.contains (sigKey it) then acc
              else (acc.1 ++ [it], acc.2 ++ [sigKey it])) acc).1,
          sigKey q = s := by
  induction l with
  | nil =>
    intro acc h s hs
    exact h s hs
  | cons it l ih =>
    intro acc h
    rw [List.foldl_cons]
    exact ih _ (dedupeScripts_step_rep acc it h)

theorem dedupeScripts_fold_mono (l : List Item) :
    ∀ (acc : List Item × List String) (s : String),
      s ∈ acc.2 →
      s ∈ (l.foldl
          (fun acc it =>
            if acc.2.contains (sigKey it) then acc
            else (acc.1 ++ [it], acc.2 ++ [sigKey it])) acc).2 := by
  induction l with
  | nil =>
    intro acc s hs
    exact hs
  | cons it l ih =>
    intro acc s hs
    rw [List.foldl_cons]
    refine ih _ s ?_
    by_cases hc : acc.2.contains (sigKey it)
    · rw [if_pos hc]
      exact hs
    · rw [if_neg hc]
      exact List.mem_append_left _ hs

theorem dedupeScripts_fold_covers (l : List Item) :
    ∀ (acc : List Item × List String) (x : Item),
      x ∈ l →
      sigKey x ∈ (l.foldl
          (fun acc it =>
            if acc.2.contains (sigKey it) then acc
            else (acc.1 ++ [it], acc.2 ++ [sigKey it])) acc).2 := by
  induction l with
  | nil =>
    intro acc x hx
    simp at hx
  | cons it l ih =>
    intro acc x hx
    rw [List.foldl_cons]
    rcases List.mem_cons.mp hx with h1 | h1
    · subst h1
      refine dedupeScripts_fold_mono l _ (sigKey x) ?_
      by_cases hc : acc.2.contains (sigKey x)
      · rw [if_pos hc]
        exact List.elem_iff.mp hc
      · rw [if_neg hc]
        exact List.mem_append_right _ (List.mem_singleton.mpr rfl)
    · exact ih _ x h1

theorem dedupeScripts_keeps_sig (items : List Item) (r : Item)
    (hr : r ∈ items) (hl : linkTruthy r = false) :
    ∃ q ∈ dedupeScripts items, sigKey q = sigKey r := by
  have hrn : r ∈ items.filter fun x => !(linkTruthy x) := by
    rw [List.mem_filter]
    exact ⟨hr, by rw [hl]; rfl⟩
  unfold dedupeScripts
  refine dedupeScripts_fold_rep _ _ ?_ (sigKey r)
      (dedupeScripts_fold_covers _ _ r hrn)
  intro s hs
  rcases List.mem_map.mp hs with ⟨q, hq1, hq2⟩
  exact ⟨q, hq1, hq2⟩

theorem keyLink_some_linkTruthy {x : Item} {k : String} (h : keyLink x = some k) :
    linkTruthy x = true := by
  unfold keyLink at h
  cases hl : x.link with
  | none =>
    rw [hl] at h
    exact absurd h (by simp)
  | some s =>
    rw [hl] at h
    have h2 : (if s = "" then none else some (cleanUrl s)) = some k := h
    have hs : s ≠ "" := by
      intro he
      rw [if_pos he] at h2
      exact absurd h2 (by simp)
    show decide (strOr x.link "" ≠ "") = true
    rw [hl, strOr_some_empty]
    exact decide_eq_true hs

theorem dedupeScripts_fold_mem (l : List Item) :
    ∀ (acc : List Item × List String) (x : Item),
      x ∈ (l.foldl
          (fun acc it =>
            if acc.2.contains (sigKey it) then acc
            else (acc.1 ++ [it], acc.2 ++ [sigKey it])) acc).1 →
      x ∈ acc.1 ∨ x ∈ l := by
  induction l with
  | nil =>
    intro acc x hx
    exact Or.inl hx
  | cons it l ih =>
    intro acc x hx
    rw [List.foldl_cons] at hx
    rcases ih _ x hx with h1 | h1
    · by_cases hc : acc.2.contains (sigKey it) = true
      · rw [if_pos hc] at h1
        exact Or.inl h1
      · rw [if_neg hc] at h1
        rcases List.mem_append.mp h1 with h2 | h2
        · exact Or.inl h2
        · rw [List.mem_singleton.mp h2]
          exact Or.inr (List.mem_cons_self it l)
    · exact Or.inr (List.mem_cons_of_mem it h1)

theorem dedupeScripts_fold_inv (l : List Item) :
    ∀ (acc : List Item × List String),
      (∀ q ∈ acc.1, sigKey q ∈ acc.2) →
      (∀ x ∈ acc.1, linkTruthy x = false →
        ∀ y ∈ acc.1, y ≠ x → sigKey y ≠ sigKey x) →
      (∀ q ∈ (l.foldl
          (fun acc it =>
            if acc.2.contains (sigKey it) then acc
            else (acc.1 ++ [it], acc.2 ++ [sigKey it])) acc).1,
        sigKey q ∈ (l.foldl
          (fun acc it =>
            if acc.2.contains (sigKey it) then acc
            else (acc.1 ++ [it], acc.2 ++ [sigKey it])) acc).2) ∧
      (∀ x ∈ (l.foldl
          (fun acc it =>
            if acc.2.contains (sigKey it) then acc
            else (acc.1 ++ [it], acc.2 ++ [sigKey it])) acc).1,
        linkTruthy x = false →
        ∀ y ∈ (l.foldl
            (fun acc it =>
              if acc.2.contains (sigKey it) then acc
              else (acc.1 ++ [it], acc.2 ++ [sigKey it])) acc).1,
          y ≠ x → sigKey y ≠ sigKey x) := by
  induction l with
  | nil =>
    intro acc h1 h2
    exact ⟨h1, h2⟩
  | cons it l ih =>
    intro acc h1 h2
    rw [List.foldl_cons]
    by_cases hc : acc.2.contains (sigKey it) = true
    · rw [if_pos hc]
      exact ih acc h1 h2
    · rw [if_neg hc]
      have hnotin : sigKey it ∉ acc.2 := by
        intro hmem
        exact hc (List.elem_iff.mpr hmem)
      apply ih
      · intro q hq
        rcases List.mem_append.mp hq with hq1 | hq1
        · exact List.mem_append.mpr (Or.inl (h1 q hq1))
        · rw [List.mem_singleton.mp hq1]
          exact List.mem_append.mpr (Or.inr (List.mem_singleton_self _))
      · intro x hx hlx y hy hyx
        rcases List.mem_append.mp hx with hx1 | hx1
        · rcases List.mem_append.mp hy with hy1 | hy1
          · exact h2 x hx1 hlx y hy1 hyx
          · rw [List.mem_singleton.mp hy1]
            intro heq
            apply hnotin
            rw [heq]
            exact h1 x hx1
        · have hxe : x = it := List.mem_singleton.mp hx1
          rcases List.mem_append.mp hy with hy1 | hy1
          · intro heq
            rw [hxe] at heq
            apply hnotin
            rw [← heq]
            exact h1 y hy1
          · exact absurd ((List.mem_singleton.mp hy1).trans hxe.symm) hyx

/-- C2 (amended): a record with an empty/absent link never participates in
the link-keyed pass (its pass-1 key is undefined) in either revision; in the
part_002 revision the signature pass iterates only over pass-1 survivors, so
every survivor has a link and a linkless record is dropped entirely (see the
counterexample); in the scripts revision a linkless record is represented in
the output by a record with its exact lowercase (title, source) signature. -/
theorem dedupe_linkless :
    (∀ r : Item, linkTruthy r = false → keyLink r = none) ∧
    (∀ (items : List Item) (x : Item), x ∈ dedupe items → linkTruthy x = true) ∧
    (∀ (items : List Item) (r : Item), r ∈ items → linkTruthy r = false →
      ∃ q ∈ dedupeScripts items, sigKey q = sigKey r) := by
  refine ⟨?_, ?_, dedupeScripts_keeps_sig⟩
  · intro r h
    cases hl : r.link with
    | none => simp [keyLink, hl]
    | some s =>
      simp only [linkTruthy, strOr, hl] at h
      by_cases hs : s = ""
      · simp [keyLink, hl, hs]
      · rw [if_neg hs] at h
        simp [hs] at h
  · intro items x hx
    unfold dedupe at hx
    rcases List.mem_map.mp hx with ⟨kv, hkv, hkv2⟩
    have hout : kv.2 ∈ (groupFold scorePrimary1000 keyLink items).map fun kv => kv.2 := by
      refine groupFold_val_prop scorePrimary1000 sigSome
          (fun v => v ∈ (groupFold scorePrimary1000 keyLink items).map fun kv => kv.2)
          _ [] (by simp) (fun it h => h) kv hkv
    rcases List.mem_map.mp hout with ⟨kv1, hkv1, hkv12⟩
    have hkey : keyLink kv1.2 = some kv1.1 :=
      groupFold_key_inv scorePrimary1000 keyLink items [] (by simp) kv1 hkv1
    cases hl : kv1.2.link with
    | none =>
      simp [keyLink, hl] at hkey
    | some s =>
      simp only [keyLink, hl] at hkey
      by_cases hs : s = ""
      · simp [hs] at hkey
      · rw [← hkv2, ← hkv12]
        simp [linkTruthy, strOr, hl, hs]

/-- Counterexample for C2 as stated: in the part_002 `dedupe` a record with
no link does not survive into the output at all. -/
theorem dedupe_linkless_counterexample :
    dedupe [{ title := some "T", source := some "s" }] = [] := by
  decide

/-- Witness for C2 at concrete inputs. -/
theorem dedupe_linkless_witness :
    keyLink { title := some "T", source := some "s" } = none ∧
    linkTruthy
        { title := some "t", link := some "https://a.com/x",
          createdAt := some (.iso 0) } = true ∧
    (∃ q ∈ dedupeScripts
        [{ title := some "t", link := some "https://a.com/x",
           createdAt := some (.iso 0) },
         { title := some "T", source := some "s" }],
      sigKey q = sigKey { title := some "T", source := some "s" }) :=
  ⟨dedupe_linkless.1 _ (by decide),
   dedupe_linkless.2.1
     [{ title := some "t", link := some "https://a.com/x",
        createdAt := some (.iso 0) },
      { title := some "T", source := some "s" }] _ (by decide),
   dedupe_linkless.2.2 _ _ (by decide) (by decide)⟩

/-! ## C5 — at most one survivor per cleaned link and per signature -/

/-- Both-key uniqueness for the part_002 dedupe output. -/
theorem dedupe_both_unique (items : List Item) (a b : Item)
    (ha : a ∈ dedupe items) (hb : b ∈ dedupe items) (hne : a ≠ b) :
    keyLink a ≠ keyLink b ∧ sigKey a ≠ sigKey b := by
  unfold dedupe at ha hb
  rcases List.mem_map.mp ha with ⟨kva, hkva, hkva2⟩
  rcases List.mem_map.mp hb with ⟨kvb, hkvb, hkvb2⟩
  have hpw2 : (groupFold scorePrimary1000 sigSome
      ((groupFold scorePrimary1000 keyLink items).map fun kv => kv.2)).Pairwise keysNe :=
    groupFold_pairwise _ _ _ [] (by simp)
  have hka : sigSome kva.2 = some kva.1 :=
    groupFold_key_inv scorePrimary1000 sigSome _ [] (by simp) kva hkva
  have hkb : sigSome kvb.2 = some kvb.1 :=
    groupFold_key_inv scorePrimary1000 sigSome _ [] (by simp) kvb hkvb
  have houta : kva.2 ∈ (groupFold scorePrimary1000 keyLink items).map fun kv => kv.2 :=
    groupFold_val_prop scorePrimary1000 sigSome
      (fun v => v ∈ (groupFold scorePrimary1000 keyLink items).map fun kv => kv.2)
      _ [] (by simp) (fun it h => h) kva hkva
  have houtb : kvb.2 ∈ (groupFold scorePrimary1000 keyLink items).map fun kv => kv.2 :=
    groupFold_val_prop scorePrimary1000 sigSome
      (fun v => v ∈ (groupFold scorePrimary1000 keyLink items).map fun kv => kv.2)
      _ [] (by simp) (fun it h => h) kvb hkvb
  constructor
  · rcases List.mem_map.mp houta with ⟨kv1, hkv1, hkv12⟩
    rcases List.mem_map.mp houtb with ⟨kv2, hkv2, hkv22⟩
    have hk1 : keyLink kv1.2 = some kv1.1 :=
      groupFold_key_inv scorePrimary1000 keyLink items [] (by simp) kv1 hkv1
    have hk2 : keyLink kv2.2 = some kv2.1 :=
      groupFold_key_inv scorePrimary1000 keyLink items [] (by simp) kv2 hkv2
    have hpw1 : (groupFold scorePrimary1000 keyLink items).Pairwise keysNe :=
      groupFold_pairwise _ _ _ [] (by simp)
    intro hcontra
    apply hne
    rw [← hkva2, ← hkvb2, ← hkv12, ← hkv22]
    rw [← hkva2, ← hkv12] at hcontra
    rw [← hkvb2, ← hkv22] at hcontra
    rw [hk1, hk2] at hcontra
    have hkeq : kv1.1 = kv2.1 := Option.some.inj hcontra
    have h1 : (kv1.1, kv1.2) ∈ groupFold scorePrimary1000 keyLink items := hkv1
    have h2 : (kv1.1, kv2.2) ∈ groupFold scorePrimary1000 keyLink items := by
      rw [hkeq]
      exact hkv2
    exact pairwise_keys_eq _ hpw1 kv1.1 kv1.2 kv2.2 h1 h2
  · intro hcontra
    apply hne
    rw [← hkva2, ← hkvb2]
    have hkeq : kva.1 = kvb.1 := by
      have h1 : sigKey kva.2 = kva.1 := Option.some.inj hka
      have h2 : sigKey kvb.2 = kvb.1 := Option.some.inj hkb
      rw [← h1, ← h2, hkva2, hkvb2, hcontra]
    have h1 : (kva.1, kva.2) ∈ groupFold scorePrimary1000 sigSome
        ((groupFold scorePrimary1000 keyLink items).map fun kv => kv.2) := hkva
    have h2 : (kva.1, kvb.2) ∈ groupFold scorePrimary1000 sigSome
        ((groupFold scorePrimary1000 keyLink items).map fun kv => kv.2) := by
      rw [hkeq]
      exact hkvb
    exact pairwise_keys_eq _ hpw2 kva.1 kva.2 kvb.2 h1 h2


/-- C5 (amended): in the part_002 dedupe output, distinct records differ
both in cleaned-link key and in lowercase (title, source) signature.  In the
scripts revision's output, distinct linked records differ in cleaned-link
key, and a linkless survivor's signature differs from every other
survivor's; but two linked survivors may share a signature, because that
revision runs no signature pass over the link-keyed survivors (the `seenSig`
set only gates the linkless append) — see the counterexample. -/
theorem dedupe_output_unique :
    (∀ (items : List Item) (a b : Item), a ∈ dedupe items → b ∈ dedupe items →
      a ≠ b → keyLink a ≠ keyLink b ∧ sigKey a ≠ sigKey b) ∧
    (∀ (items : List Item) (a b : Item), a ∈ dedupeScripts items →
      b ∈ dedupeScripts items → a ≠ b →
      linkTruthy a = true → linkTruthy b = true → keyLink a ≠ keyLink b) ∧
    (∀ (items : List Item) (a b : Item), a ∈ dedupeScripts items →
      b ∈ dedupeScripts items → a ≠ b → linkTruthy a = false →
      sigKey a ≠ sigKey b) := by
  refine ⟨fun items a b ha hb hne => dedupe_both_unique items a b ha hb hne,
    ?_, ?_⟩
  · intro items a b ha hb hne hla hlb
    simp only [dedupeScripts] at ha hb
    have ha2 : a ∈ (groupFold scoreScripts1000 keyLink items).map fun kv => kv.2 := by
      rcases dedupeScripts_fold_mem _ _ a ha with h1 | h1
      · exact h1
      · have h2 := (List.mem_filter.mp h1).2
        rw [hla] at h2
        exact absurd h2 (by decide)
    have hb2 : b ∈ (groupFold scoreScripts1000 keyLink items).map fun kv => kv.2 := by
      rcases dedupeScripts_fold_mem _ _ b hb with h1 | h1
      · exact h1
      · have h2 := (List.mem_filter.mp h1).2
        rw [hlb] at h2
        exact absurd h2 (by decide)
    rcases List.mem_map.mp ha2 with ⟨kv1, hkv1, hkv12⟩
    rcases List.mem_map.mp hb2 with ⟨kv2, hkv2, hkv22⟩
    have hk1 : keyLink kv1.2 = some kv1.1 :=
      groupFold_key_inv scoreScripts1000 keyLink items [] (by simp) kv1 hkv1
    have hk2 : keyLink kv2.2 = some kv2.1 :=
      groupFold_key_inv scoreScripts1000 keyLink items [] (by simp) kv2 hkv2
    have hpw : (groupFold scoreScripts1000 keyLink items).Pairwise keysNe :=
      groupFold_pairwise _ _ _ [] (by simp)
    intro hcontra
    apply hne
    rw [← hkv12, ← hkv22]
    rw [← hkv12, ← hkv22] at hcontra
    rw [hk1, hk2] at hcontra
    have hkeq : kv1.1 = kv2.1 := Option.some.inj hcontra
    have h1 : (kv1.1, kv1.2) ∈ groupFold scoreScripts1000 keyLink items := hkv1
    have h2 : (kv1.1, kv2.2) ∈ groupFold scoreScripts1000 keyLink items := by
      rw [hkeq]
      exact hkv2
    exact pairwise_keys_eq _ hpw kv1.1 kv1.2 kv2.2 h1 h2
  · intro items a b ha hb hne hla
    simp only [dedupeScripts] at ha hb
    have hbase1 : ∀ q ∈ (groupFold scoreScripts1000 keyLink items).map fun kv => kv.2,
        sigKey q ∈
          ((groupFold scoreScripts1000 keyLink items).map fun kv => kv.2).map sigKey :=
      fun q hq => List.mem_map_of_mem sigKey hq
    have hbase2 : ∀ x ∈ (groupFold scoreScripts1000 keyLink items).map fun kv => kv.2,
        linkTruthy x = false →
        ∀ y ∈ (groupFold scoreScripts1000 keyLink items).map fun kv => kv.2,
          y ≠ x → sigKey y ≠ sigKey x := by
      intro x hx hlx y hy hyx
      exfalso
      rcases List.mem_map.mp hx with ⟨kv, hkv, hkv2⟩
      have hk : keyLink kv.2 = some kv.1 :=
        groupFold_key_inv scoreScripts1000 keyLink items [] (by simp) kv hkv
      have ht := keyLink_some_linkTruthy hk
      rw [hkv2, hlx] at ht
      exact Bool.false_ne_true ht
    have hinv := dedupeScripts_fold_inv (items.filter fun x => !(linkTruthy x))
      ((groupFold scoreScripts1000 keyLink items).map fun kv => kv.2,
        ((groupFold scoreScripts1000 keyLink items).map fun kv => kv.2).map sigKey)
      hbase1 hbase2
    have h := hinv.2 a ha hla b hb (Ne.symm hne)
    intro heq
    exact h heq.symm

/-- C5 counterexample: in the scripts dedupe two linked records with
different cleaned links but identical lowercase (title, source) signatures
both survive, falsifying the signatures-differ conjunct for that
revision. -/
theorem dedupeScripts_sig_counterexample :
    dedupeScripts
        [{ title := some "t", source := some "s", link := some "https://a.com/x" },
         { title := some "t", source := some "s", link := some "https://b.com/y" }] =
      [{ title := some "t", source := some "s", link := some "https://a.com/x" },
       { title := some "t", source := some "s", link := some "https://b.com/y" }] ∧
    sigKey { title := some "t", source := some "s", link := some "https://a.com/x" } =
      sigKey { title := some "t", source := some "s", link := some "https://b.com/y" } ∧
    ({ title := some "t", source := some "s",
       link := some "https://a.com/x" } : Item) ≠
      { title := some "t", source := some "s", link := some "https://b.com/y" } := by
  decide

/-- Witness for C5 at a concrete two-record input. -/
theorem dedupe_output_unique_witness :
    ({ title := some "t", link := some "https://a.com/x" } : Item) ∈
        dedupe
          [{ title := some "t", link := some "https://a.com/x" },
           { title := some "u", link := some "https://b.com/y" }] ∧
    ({ title := some "u", link := some "https://b.com/y" } : Item) ∈
        dedupe
          [{ title := some "t", link := some "https://a.com/x" },
           { title := some "u", link := some "https://b.com/y" }] ∧
    keyLink ({ title := some "t", link := some "https://a.com/x" } : Item) ≠
        keyLink { title := some "u", link := some "https://b.com/y" } ∧
    sigKey ({ title := some "t", link := some "https://a.com/x" } : Item) ≠
        sigKey { title := some "u", link := some "https://b.com/y" } :=
  ⟨by decide, by decide,
   dedupe_output_unique.1
     [{ title := some "t", link := some "https://a.com/x" },
      { title := some "u", link := some "https://b.com/y" }]
     _ _ (by decide) (by decide) (by decide)⟩

/-! ## C6 — the final catalog sort -/

theorem lexLe_trans : ∀ a b c : List Char,
    lexLe a b = true → lexLe b c = true → lexLe a c = true := by
  intro a
  induction a with
  | nil =>
    intro b c _ _
    rfl
  | cons x xs ih =>
    intro b c hab hbc
    cases b with
    | nil => simp [lexLe] at hab
    | cons y ys =>
      cases c with
      | nil => simp [lexLe] at hbc
      | cons z zs =>
        simp only [lexLe] at hab hbc ⊢
        by_cases h1 : x.toNat < y.toNat
        · by_cases h2 : y.toNat < z.toNat
          · rw [if_pos (show x.toNat < z.toNat by omega)]
          · rw [if_neg h2] at hbc
            by_cases h4 : z.toNat < y.toNat
            · rw [if_pos h4] at hbc
              exact absurd hbc (by simp)
            · rw [if_pos (show x.toNat < z.toNat by omega)]
        · rw [if_neg h1] at hab
          by_cases h5 : y.toNat < x.toNat
          · rw [if_pos h5] at hab
            exact absurd hab (by simp)
          · rw [if_neg h5] at hab
            by_cases h2 : y.toNat < z.toNat
            · rw [if_pos (show x.toNat < z.toNat by omega)]
            · rw [if_neg h2] at hbc
              by_cases h4 : z.toNat < y.toNat
              · rw [if_pos h4] at hbc
                exact absurd hbc (by simp)
              · rw [if_neg h4] at hbc
                rw [if_neg (show ¬x.toNat < z.toNat by omega),
                  if_neg (show ¬z.toNat < x.toNat by omega)]
                exact ih ys zs hab hbc

theorem lexLe_total : ∀ a b : List Char, (lexLe a b || lexLe b a) = true := by
  intro a
  induction a with
  | nil =>
    intro b
    rfl
  | cons x xs ih =>
    intro b
    cases b with
    | nil => rfl
    | cons y ys =>
      simp only [lexLe]
      by_cases h1 : x.toNat < y.toNat
      · rw [if_pos h1]
        rfl
      · by_cases h2 : y.toNat < x.toNat
        · rw [if_pos h2, if_neg h1, if_pos h2]
          simp
        · rw [if_neg h1, if_neg h2, if_neg h2, if_neg h1]
          exact ih ys

theorem catLe_trans : ∀ a b c : Item,
    catLe a b = true → catLe b c = true → catLe a c = true := by
  intro a b c hab hbc
  unfold catLe at hab hbc ⊢
  by_cases h1 : keyTime a = keyTime b
  · rw [if_pos h1] at hab
    by_cases h2 : keyTime b = keyTime c
    · rw [if_pos h2] at hbc
      rw [if_pos (h1.trans h2)]
      exact lexLe_trans _ _ _ hab hbc
    · rw [if_neg h2] at hbc
      have hlt : keyTime c < keyTime b := of_decide_eq_true hbc
      rw [if_neg (show keyTime a ≠ keyTime c by omega)]
      exact decide_eq_true (by omega)
  · rw [if_neg h1] at hab
    have hlt : keyTime b < keyTime a := of_decide_eq_true hab
    by_cases h2 : keyTime b = keyTime c
    · rw [if_neg (show keyTime a ≠ keyTime c by omega)]
      exact decide_eq_true (by omega)
    · rw [if_neg h2] at hbc
      have hlt2 : keyTime c < keyTime b := of_decide_eq_true hbc
      rw [if_neg (show keyTime a ≠ keyTime c by omega)]
      exact decide_eq_true (by omega)

theorem catLe_total : ∀ a b : Item, (catLe a b || catLe b a) = true := by
  intro a b
  unfold catLe
  by_cases h : keyTime a = keyTime b
  · rw [if_pos h, if_pos h.symm]
    exact lexLe_total _ _
  · rw [if_neg h, if_neg (Ne.symm h)]
    rcases lt_or_gt_of_ne (show keyTime a ≠ keyTime b from h) with hlt | hlt
    · rw [Bool.or_eq_true]
      exact Or.inr (decide_eq_true hlt)
    · rw [Bool.or_eq_true]
      exact Or.inl (decide_eq_true hlt)

theorem mem_insertCat (x : Item) :
    ∀ (l : List Item) (z : Item), z ∈ insertCat x l → z = x ∨ z ∈ l := by
  intro l
  induction l with
  | nil =>
    intro z hz
    simp only [insertCat, List.mem_singleton] at hz
    exact Or.inl hz
  | cons y ys ih =>
    intro z hz
    unfold insertCat at hz
    by_cases h : catLe y x
    · rw [if_pos h] at hz
      rcases List.mem_cons.mp hz with h1 | h1
      · exact Or.inr (h1 ▸ List.mem_cons_self _ _)
      · rcases ih z h1 with h2 | h2
        · exact Or.inl h2
        · exact Or.inr (List.mem_cons_of_mem _ h2)
    · rw [if_neg h] at hz
      rcases List.mem_cons.mp hz with h1 | h1
      · exact Or.inl h1
      · exact Or.inr h1

theorem insertCat_pairwise (x : Item) :
    ∀ l : List Item, l.Pairwise (fun a b => catLe a b = true) →
      (insertCat x l).Pairwise (fun a b => catLe a b = true) := by
  intro l
  induction l with
  | nil =>
    intro _
    simp [insertCat]
  | cons y ys ih =>
    intro hp
    rcases List.pairwise_cons.mp hp with ⟨hhead, htail⟩
    unfold insertCat
    by_cases h : catLe y x
    · rw [if_pos h]
      refine List.pairwise_cons.mpr ⟨?_, ih htail⟩
      intro z hz
      rcases mem_insertCat x ys z hz with h1 | h1
      · rw [h1]
        exact h
      · exact hhead z h1
    · rw [if_neg h]
      have hxy : catLe x y = true := by
        rcases Bool.or_eq_true_iff.mp (catLe_total x y) with h1 | h1
        · exact h1
        · exact absurd h1 h
      refine List.pairwise_cons.mpr ⟨?_, hp⟩
      intro z hz
      rcases List.mem_cons.mp hz with h1 | h1
      · rw [h1]
        exact hxy
      · exact catLe_trans x y z hxy (hhead z h1)

theorem sortCatalog_aux_pairwise :
    ∀ (l acc : List Item), acc.Pairwise (fun a b => catLe a b = true) →
      (l.foldl (fun acc x => insertCat x acc) acc).Pairwise
        (fun a b => catLe a b = true) := by
  intro l
  induction l with
  | nil =>
    intro acc h
    exact h
  | cons x xs ih =>
    intro acc h
    rw [List.foldl_cons]
    exact ih _ (insertCat_pairwise x acc h)

theorem insertCat_perm (x : Item) :
    ∀ l : List Item, (insertCat x l).Perm (x :: l) := by
  intro l
  induction l with
  | nil => simp [insertCat]
  | cons y ys ih =>
    unfold insertCat
    by_cases h : catLe y x
    · rw [if_pos h]
      exact (ih.cons y).trans (List.Perm.swap x y ys)
    · rw [if_neg h]

theorem sortCatalog_aux_perm :
    ∀ l acc : List Item,
      (l.foldl (fun acc x => insertCat x acc) acc).Perm (acc ++ l) := by
  intro l
  induction l with
  | nil =>
    intro acc
    simp
  | cons x xs ih =>
    intro acc
    rw [List.foldl_cons]
    refine (ih (insertCat x acc)).trans ?_
    refine ((insertCat_perm x acc).append_right xs).trans ?_
    exact List.perm_middle.symm

theorem sortCatalog_perm (l : List Item) : (sortCatalog l).Perm l := by
  simpa [sortCatalog] using sortCatalog_aux_perm l []

theorem catLeScripts_trans : ∀ a b c : Item,
    catLeScripts a b = true → catLeScripts b c = true → catLeScripts a c = true := by
  intro a b c hab hbc
  have h1 : keyTime b ≤ keyTime a := of_decide_eq_true hab
  have h2 : keyTime c ≤ keyTime b := of_decide_eq_true hbc
  exact decide_eq_true (le_trans h2 h1)

theorem catLeScripts_total : ∀ a b : Item,
    (catLeScripts a b || catLeScripts b a) = true := by
  intro a b
  rcases le_total (keyTime b) (keyTime a) with h | h
  · rw [Bool.or_eq_true]
    exact Or.inl (decide_eq_true h)
  · rw [Bool.or_eq_true]
    exact Or.inr (decide_eq_true h)

theorem mem_insertCatS (x : Item) :
    ∀ (l : List Item) (z : Item), z ∈ insertCatS x l → z = x ∨ z ∈ l := by
  intro l
  induction l with
  | nil =>
    intro z hz
    simp only [insertCatS, List.mem_singleton] at hz
    exact Or.inl hz
  | cons y ys ih =>
    intro z hz
    unfold insertCatS at hz
    by_cases h : catLeScripts y x
    · rw [if_pos h] at hz
      rcases List.mem_cons.mp hz with h1 | h1
      · exact Or.inr (h1 ▸ List.mem_cons_self _ _)
      · rcases ih z h1 with h2 | h2
        · exact Or.inl h2
        · exact Or.inr (List.mem_cons_of_mem _ h2)
    · rw [if_neg h] at hz
      rcases List.mem_cons.mp hz with h1 | h1
      · exact Or.inl h1
      · exact Or.inr h1

theorem insertCatS_pairwise (x : Item) :
    ∀ l : List Item, l.Pairwise (fun a b => catLeScripts a b = true) →
      (insertCatS x l).Pairwise (fun a b => catLeScripts a b = true) := by
  intro l
  induction l with
  | nil =>
    intro _
    simp [insertCatS]
  | cons y ys ih =>
    intro hp
    rcases List.pairwise_cons.mp hp with ⟨hhead, htail⟩
    unfold insertCatS
    by_cases h : catLeScripts y x
    · rw [if_pos h]
      refine List.pairwise_cons.mpr ⟨?_, ih htail⟩
      intro z hz
      rcases mem_insertCatS x ys z hz with h1 | h1
      · rw [h1]
        exact h
      · exact hhead z h1
    · rw [if_neg h]
      have hxy : catLeScripts x y = true := by
        rcases Bool.or_eq_true_iff.mp (catLeScripts_total x y) with h1 | h1
        · exact h1
        · exact absurd h1 h
      refine List.pairwise_cons.mpr ⟨?_, hp⟩
      intro z hz
      rcases List.mem_cons.mp hz with h1 | h1
      · rw [h1]
        exact hxy
      · exact catLeScripts_trans x y z hxy (hhead z h1)

theorem sortCatalogScripts_aux_pairwise :
    ∀ (l acc : List Item), acc.Pairwise (fun a b => catLeScripts a b = true) →
      (l.foldl (fun acc x => insertCatS x acc) acc).Pairwise
        (fun a b => catLeScripts a b = true) := by
  intro l
  induction l with
  | nil =>
    intro acc h
    exact h
  | cons x xs ih =>
    intro acc h
    rw [List.foldl_cons]
    exact ih _ (insertCatS_pairwise x acc h)

theorem insertCatS_perm (x : Item) :
    ∀ l : List Item, (insertCatS x l).Perm (x :: l) := by
  intro l
  induction l with
  | nil => simp [insertCatS]
  | cons y ys ih =>
    unfold insertCatS
    by_cases h : catLeScripts y x
    · rw [if_pos h]
      exact (ih.cons y).trans (List.Perm.swap x y ys)
    · rw [if_neg h]

theorem sortCatalogScripts_aux_perm :
    ∀ l acc : List Item,
      (l.foldl (fun acc x => insertCatS x acc) acc).Perm (acc ++ l) := by
  intro l
  induction l with
  | nil =>
    intro acc
    simp
  | cons x xs ih =>
    intro acc
    rw [List.foldl_cons]
    refine (ih (insertCatS x acc)).trans ?_
    refine ((insertCatS_perm x acc).append_right xs).trans ?_
    exact List.perm_middle.symm

theorem sortCatalogScripts_perm (l : List Item) : (sortCatalogScripts l).Perm l := by
  simpa [sortCatalogScripts] using sortCatalogScripts_aux_perm l []

/-- C6 (amended): the part_002 catalog (`filtered.sort(...)` of lines
671-677) is sorted by `createdAt` descending (missing `createdAt` counting
as epoch 0) with ties broken by title ascending, and is a permutation of the
filtered records.  The scripts revision (pull-feeds.mjs lines 364-368) sorts
by `createdAt` descending only: its comparator `(tb || 0) - (ta || 0)` has
no title tie-break, so its stable sort keeps time-tied records in input
order (see the counterexample), and only the descending-time clause and the
permutation hold of it. -/
theorem sortCatalog_sorted (l : List Item) :
    (List.Chain'
      (fun a b =>
        keyTime b ≤ keyTime a ∧
          (keyTime a = keyTime b →
            strLeB (strOr a.title "") (strOr b.title "") = true))
      (sortCatalog l) ∧ (sortCatalog l).Perm l) ∧
    (List.Chain' (fun a b => keyTime b ≤ keyTime a) (sortCatalogScripts l) ∧
      (sortCatalogScripts l).Perm l) := by
  refine ⟨⟨?_, sortCatalog_perm l⟩, ?_, sortCatalogScripts_perm l⟩
  · have hp : (sortCatalog l).Pairwise (fun a b => catLe a b = true) :=
      sortCatalog_aux_pairwise l [] List.Pairwise.nil
    refine hp.chain'.imp ?_
    intro a b hab
    unfold catLe at hab
    by_cases h : keyTime a = keyTime b
    · rw [if_pos h] at hab
      exact ⟨le_of_eq h.symm, fun _ => hab⟩
    · rw [if_neg h] at hab
      exact ⟨le_of_lt (of_decide_eq_true hab), fun hh => absurd hh h⟩
  · have hp : (sortCatalogScripts l).Pairwise
        (fun a b => catLeScripts a b = true) :=
      sortCatalogScripts_aux_pairwise l [] List.Pairwise.nil
    refine hp.chain'.imp ?_
    intro a b hab
    exact of_decide_eq_true hab

/-- C6 counterexample: under the scripts comparator two records with equal
timestamps stay in input order even when their titles are out of ascending
order — the clause "ties broken by title ascending" fails for that revision,
while the part_002 sort does reorder the same pair. -/
theorem sortScripts_tie_counterexample :
    sortCatalogScripts
        [{ title := some "b", createdAt := some (.iso 5) },
         { title := some "a", createdAt := some (.iso 5) }] =
      [{ title := some "b", createdAt := some (.iso 5) },
       { title := some "a", createdAt := some (.iso 5) }] ∧
    keyTime { title := some "b", createdAt := some (.iso 5) } =
      keyTime { title := some "a", createdAt := some (.iso 5) } ∧
    strLeB
        (strOr ({ title := some "b", createdAt := some (.iso 5) } : Item).title "")
        (strOr ({ title := some "a", createdAt := some (.iso 5) } : Item).title "") =
      false ∧
    sortCatalog
        [{ title := some "b", createdAt := some (.iso 5) },
         { title := some "a", createdAt := some (.iso 5) }] =
      [{ title := some "a", createdAt := some (.iso 5) },
       { title := some "b", createdAt := some (.iso 5) }] := by
  decide

/-! ## C8 — the future-timestamp clamp and its preservation -/

theorem clampFutureISO_bound (now : Int) (o : Option DateStr) :
    clampFutureISO now o = none ∨
    ∃ t, clampFutureISO now o = some (.iso t) ∧ t ≤ now + skewMs := by
  cases o with
  | none => exact Or.inl rfl
  | some d =>
    have he : clampFutureISO now (some d) =
        if dateTruthy d = true then
          (match dparse d with
           | none => none
           | some t => some (DateStr.iso (min t (now + skewMs))))
        else none := rfl
    cases hd : dateTruthy d with
    | false => simp [he, hd]
    | true =>
      rw [he, if_pos hd]
      cases hp : dparse d with
      | none => exact Or.inl rfl
      | some t =>
        exact Or.inr ⟨min t (now + skewMs), rfl, min_le_right _ _⟩

theorem canonStep_createdAt (rp : String → String) (it : Item) :
    (canonStep rp it).createdAt = it.createdAt := by
  unfold canonStep
  cases hl : it.link with
  | none => rfl
  | some l =>
    by_cases h : l = "" <;> simp [h]

theorem upgradeStep_createdAt (fo : String → Option String) (it : Item) :
    (upgradeStep fo it).createdAt = it.createdAt := by
  unfold upgradeStep
  split
  · cases fo (strOr it.link "") <;> rfl
  · rfl

theorem dedupe_subset (items : List Item) (x : Item) (hx : x ∈ dedupe items) :
    x ∈ items := by
  unfold dedupe at hx
  rcases List.mem_map.mp hx with ⟨kv, hkv, hkv2⟩
  have hout : kv.2 ∈ (groupFold scorePrimary1000 keyLink items).map fun kv => kv.2 :=
    groupFold_val_prop scorePrimary1000 sigSome
      (fun v => v ∈ (groupFold scorePrimary1000 keyLink items).map fun kv => kv.2)
      _ [] (by simp) (fun it h => h) kv hkv
  rcases List.mem_map.mp hout with ⟨kv1, hkv1, hkv12⟩
  have : kv1.2 ∈ items :=
    groupFold_val_prop scorePrimary1000 keyLink (fun v => v ∈ items) items []
      (by simp) (fun it h => h) kv1 hkv1
  rw [← hkv2, ← hkv12]
  exact this

/-- C8: every record surviving the full pipeline has `createdAt` equal to
null or to an ISO timestamp at most `now + FUTURE_CREATEDAT_SKEW_MIN` minutes
(the bound set by normalization is untouched by the upgrade, canonicalize,
dedupe, freshness and sort stages); and a future `createdAt` beyond the skew
(e.g. one year ahead) is clamped to exactly `now + skew`. -/
theorem pipelineKept_createdAt_bound :
    (∀ (now : Int) (fo : String → Option String) (rp : String → String)
        (raws : List Item) (x : Item), x ∈ pipelineKept now fo rp raws →
        x.createdAt = none ∨ ∃ t, x.createdAt = some (.iso t) ∧ t ≤ now + skewMs) ∧
    (∀ now t : Int, now + skewMs < t →
        clampFutureISO now (some (.iso t)) = some (.iso (now + skewMs))) := by
  constructor
  · intro now fo rp raws x hx
    unfold pipelineKept at hx
    have hx1 := (sortCatalog_perm _).mem_iff.mp hx
    have hx2 := (List.mem_filter.mp hx1).1
    have hx3 := dedupe_subset _ x hx2
    rcases List.mem_map.mp hx3 with ⟨y, hy, hyx⟩
    rcases List.mem_map.mp hy with ⟨z, hz, hzy⟩
    rcases List.mem_map.mp hz with ⟨r, _, hrz⟩
    have hcr : x.createdAt = clampFutureISO now r.createdAt := by
      rw [← hyx, canonStep_createdAt, ← hzy, upgradeStep_createdAt, ← hrz]
      rfl
    rw [hcr]
    exact clampFutureISO_bound now r.createdAt
  · intro now t h
    have hmin : min t (now + skewMs) = now + skewMs := min_eq_right (le_of_lt h)
    simp [clampFutureISO, dateTruthy, dparse, hmin]

/-- Witness for C8: a record posted one year in the future (milliseconds
31536000000 ahead of `now = 0`) survives the pipeline carrying the clamped
timestamp `now + skew`. -/
theorem pipelineKept_createdAt_bound_witness :
    (({ id := some "https://x.com/a", title := some "Win",
        link := some "https://x.com/a", source := some "x.com",
        createdAt := some (.iso 600000), deadline := none, prize := none,
        tags := some [] } : Item) ∈
      pipelineKept 0 (fun _ => none) (fun s => s)
        [{ title := some "Win", link := some "https://x.com/a",
           createdAt := some (.iso 31536000000) }]) ∧
    (({ id := some "https://x.com/a", title := some "Win",
        link := some "https://x.com/a", source := some "x.com",
        createdAt := some (.iso 600000), deadline := none, prize := none,
        tags := some [] } : Item).createdAt = none ∨
      ∃ t, ({ id := some "https://x.com/a", title := some "Win",
              link := some "https://x.com/a", source := some "x.com",
              createdAt := some (.iso 600000), deadline := none, prize := none,
              tags := some [] } : Item).createdAt = some (.iso t) ∧
        t ≤ 0 + skewMs) ∧
    (0 : Int) + skewMs < 31536000000 ∧
    clampFutureISO 0 (some (.iso 31536000000)) = some (.iso (0 + skewMs)) :=
  ⟨by decide,
   pipelineKept_createdAt_bound.1 0 (fun _ => none) (fun s => s)
     [{ title := some "Win", link := some "https://x.com/a",
        createdAt := some (.iso 31536000000) }] _ (by decide),
   by decide,
   pipelineKept_createdAt_bound.2 0 31536000000 (by decide)⟩

/-! ## C9 — bounded worker pools mirror the input -/

theorem poolInv_init (W : Nat) (g : Item → Item) (items : List Item) :
    PoolInv W g items (poolInit W items.length) := by
  refine ⟨?_, ?_, ?_, ?_, ?_, ?_, ?_, ?_, ?_⟩
  · simp [poolInit]
  · simp [poolInit]
  · simp [poolInit]
  · intro w idx h
    simp only [poolInit, List.getElem?_replicate] at h
    split at h <;> simp_all
  · intro w1 w2 idx _ h1
    simp only [poolInit, List.getElem?_replicate] at h1
    split at h1 <;> simp_all
  · intro idx it hlt
    simp only [poolInit] at hlt
    omega
  · intro idx _ h2
    simp [poolInit, List.getElem?_replicate, h2]
  · intro w h
    simp only [poolInit, List.getElem?_replicate] at h
    split at h <;> simp_all
  · intro w h
    simp only [poolInit, List.getElem?_replicate] at h
    split at h <;> simp_all

theorem poolInv_step (W : Nat) (g : Item → Item) (items : List Item)
    (s s2 : PoolState) (e : PEvent) (hs : PoolInv W g items s)
    (he : applyEvent g items s e = some s2) : PoolInv W g items s2 := by
  cases e with
  | claim w =>
    cases hd : s.done[w]? with
    | none => simp [applyEvent, hd] at he
    | some b =>
      cases b with
      | true => simp [applyEvent, hd] at he
      | false =>
        cases hc : s.claimed[w]? with
        | none => simp [applyEvent, hd, hc] at he
        | some co =>
          cases co with
          | some idx => simp [applyEvent, hd, hc] at he
          | none =>
            have hwc : w < s.claimed.length := (List.getElem?_eq_some.mp hc).1
            have hwd : w < s.done.length := (List.getElem?_eq_some.mp hd).1
            simp only [applyEvent, hd, hc] at he
            by_cases hcur : s.cursor < items.length
            · rw [if_pos hcur] at he
              injection he with he2
              subst he2
              refine ⟨hs.lenR, ?_, hs.lenD, ?_, ?_, ?_, ?_, ?_, ?_⟩
              · dsimp only
                rw [List.length_set]
                exact hs.lenC
              · intro w' idx' h
                dsimp only at h ⊢
                by_cases hw : w' = w
                · subst hw
                  rw [List.getElem?_set_self hwc] at h
                  have : idx' = s.cursor := by
                    injection h with h1
                    injection h1 with h2
                    exact h2.symm
                  subst this
                  exact ⟨hcur, Nat.lt_succ_self _,
                    hs.resNone s.cursor (le_refl _) hcur⟩
                · rw [List.getElem?_set_ne (fun hh => hw hh.symm)] at h
                  rcases hs.claimedOk w' idx' h with ⟨h1, h2, h3⟩
                  exact ⟨h1, Nat.lt_succ_of_lt h2, h3⟩
              · intro w1 w2 idx' hne h1
                dsimp only at h1 ⊢
                by_cases hw1 : w1 = w
                · subst hw1
                  rw [List.getElem?_set_self hwc] at h1
                  have hidx : idx' = s.cursor := by
                    injection h1 with h1a
                    injection h1a with h1b
                    exact h1b.symm
                  subst hidx
                  rw [List.getElem?_set_ne hne]
                  intro hcon
                  rcases hs.claimedOk w2 s.cursor hcon with ⟨_, h2, _⟩
                  omega
                · rw [List.getElem?_set_ne (fun hh => hw1 hh.symm)] at h1
                  by_cases hw2 : w2 = w
                  · subst hw2
                    rw [List.getElem?_set_self hwc]
                    intro hcon
                    have hidx : idx' = s.cursor := by
                      injection hcon.symm with h1a
                      injection h1a
                    subst hidx
                    rcases hs.claimedOk w1 s.cursor h1 with ⟨_, h2, _⟩
                    omega
                  · rw [List.getElem?_set_ne (fun hh => hw2 hh.symm)]
                    exact hs.claimedNe w1 w2 idx' hne h1
              · intro idx' it hlt hit hun
                dsimp only at hlt hun ⊢
                by_cases hidx : idx' = s.cursor
                · subst hidx
                  exact absurd (List.getElem?_set_self hwc)
                    (hun w)
                · have hlt2 : idx' < s.cursor := by omega
                  refine hs.resDone idx' it hlt2 hit ?_
                  intro w'
                  by_cases hw : w' = w
                  · subst hw
                    rw [hc]
                    simp
                  · have := hun w'
                    rw [List.getElem?_set_ne (fun hh => hw hh.symm)] at this
                    exact this
              · intro idx' h1 h2
                dsimp only at h1 ⊢
                exact hs.resNone idx' (by omega) h2
              · intro w' h
                dsimp only at h ⊢
                have := hs.doneCur w' h
                omega
              · intro w' h
                dsimp only at h ⊢
                have hw : w' ≠ w := by
                  intro hh
                  subst hh
                  rw [hd] at h
                  simp at h
                rw [List.getElem?_set_ne (fun hh => hw hh.symm)]
                exact hs.doneNoClaim w' h
            · rw [if_neg hcur] at he
              injection he with he2
              subst he2
              have hn : items.length ≤ s.cursor := by omega
              refine ⟨hs.lenR, hs.lenC, ?_, ?_, ?_, ?_, ?_, ?_, ?_⟩
              · dsimp only
                rw [List.length_set]
                exact hs.lenD
              · intro w' idx' h
                dsimp only at h ⊢
                rcases hs.claimedOk w' idx' h with ⟨h1, h2, h3⟩
                exact ⟨h1, Nat.lt_succ_of_lt h2, h3⟩
              · intro w1 w2 idx' hne h1
                dsimp only at h1 ⊢
                exact hs.claimedNe w1 w2 idx' hne h1
              · intro idx' it hlt hit hun
                dsimp only at hlt hun ⊢
                have : idx' < items.length := (List.getElem?_eq_some.mp hit).1
                exact hs.resDone idx' it (by omega) hit hun
              · intro idx' h1 h2
                dsimp only at h1 ⊢
                omega
              · intro w' h
                dsimp only at h ⊢
                omega
              · intro w' h
                dsimp only at h ⊢
                by_cases hw : w' = w
                · subst hw
                  exact hc
                · rw [List.getElem?_set_ne (fun hh => hw hh.symm)] at h
                  exact hs.doneNoClaim w' h
  | write w =>
    cases hc : s.claimed[w]? with
    | none => simp [applyEvent, hc] at he
    | some co =>
      cases co with
      | none => simp [applyEvent, hc] at he
      | some idx =>
        cases hi : items[idx]? with
        | none => simp [applyEvent, hc, hi] at he
        | some it =>
          have hwc : w < s.claimed.length := (List.getElem?_eq_some.mp hc).1
          rcases hs.claimedOk w idx hc with ⟨hin, hcur, hres⟩
          have hir : idx < s.results.length := by
            rw [hs.lenR]
            exact hin
          simp only [applyEvent, hc, hi] at he
          injection he with he2
          subst he2
          refine ⟨?_, ?_, hs.lenD, ?_, ?_, ?_, ?_, ?_, ?_⟩
          · dsimp only
            rw [List.length_set]
            exact hs.lenR
          · dsimp only
            rw [List.length_set]
            exact hs.lenC
          · intro w' idx' h
            dsimp only at h ⊢
            by_cases hw : w' = w
            · subst hw
              rw [List.getElem?_set_self hwc] at h
              simp at h
            · rw [List.getElem?_set_ne (fun hh => hw hh.symm)] at h
              rcases hs.claimedOk w' idx' h with ⟨h1, h2, h3⟩
              have hne2 : idx' ≠ idx := by
                intro hh
                subst hh
                exact hs.claimedNe w' w idx' hw h hc
              refine ⟨h1, h2, ?_⟩
              rw [List.getElem?_set_ne (fun hh => hne2 hh.symm)]
              exact h3
          · intro w1 w2 idx' hne h1
            dsimp only at h1 ⊢
            by_cases hw1 : w1 = w
            · subst hw1
              rw [List.getElem?_set_self hwc] at h1
              simp at h1
            · rw [List.getElem?_set_ne (fun hh => hw1 hh.symm)] at h1
              by_cases hw2 : w2 = w
              · subst hw2
                rw [List.getElem?_set_self hwc]
                simp
              · rw [List.getElem?_set_ne (fun hh => hw2 hh.symm)]
                exact hs.claimedNe w1 w2 idx' hne h1
          · intro idx' it' hlt hit hun
            dsimp only at hlt hun ⊢
            by_cases hidx : idx' = idx
            · subst hidx
              have : it' = it := by
                rw [hit] at hi
                injection hi
              subst this
              exact List.getElem?_set_self hir
            · rw [List.getElem?_set_ne (fun hh => hidx hh.symm)]
              refine hs.resDone idx' it' hlt hit ?_
              intro w'
              by_cases hw : w' = w
              · subst hw
                rw [hc]
                intro hcon
                injection hcon with h1a
                injection h1a with h1b
                exact hidx h1b.symm
              · have := hun w'
                rw [List.getElem?_set_ne (fun hh => hw hh.symm)] at this
                exact this
          · intro idx' h1 h2
            dsimp only at h1 ⊢
            have hne2 : idx' ≠ idx := by omega
            rw [List.getElem?_set_ne (fun hh => hne2 hh.symm)]
            exact hs.resNone idx' h1 h2
          · intro w' h
            dsimp only at h ⊢
            exact hs.doneCur w' h
          · intro w' h
            dsimp only at h ⊢
            have hw : w' ≠ w := by
              intro hh
              subst hh
              rw [hs.doneNoClaim w' h] at hc
              simp at hc
            rw [List.getElem?_set_ne (fun hh => hw hh.symm)]
            exact hs.doneNoClaim w' h

theorem runPool_none (g : Item → Item) (items : List Item) (evs : List PEvent) :
    evs.foldl (fun os e => os.bind fun s => applyEvent g items s e)
      (none : Option PoolState) = none := by
  induction evs with
  | nil => rfl
  | cons e evs ih => simpa using ih

theorem runPool_inv (W : Nat) (g : Item → Item) (items : List Item) :
    ∀ (evs : List PEvent) (s sf : PoolState), PoolInv W g items s →
      evs.foldl (fun os e => os.bind fun s => applyEvent g items s e) (some s) =
        some sf →
      PoolInv W g items sf := by
  intro evs
  induction evs with
  | nil =>
    intro s sf hs h
    injection h with h2
    subst h2
    exact hs
  | cons e evs ih =>
    intro s sf hs h
    rw [List.foldl_cons] at h
    cases ha : applyEvent g items s e with
    | none =>
      rw [show (some s).bind (fun s => applyEvent g items s e) = none by
        simp [ha]] at h
      rw [runPool_none] at h
      exact absurd h (by simp)
    | some s1 =>
      rw [show (some s).bind (fun s => applyEvent g items s e) = some s1 by
        simp [ha]] at h
      exact ih s1 sf (poolInv_step W g items s s1 e hs ha) h

/-- A completed pool execution computed exactly `g` at every index. -/
theorem pool_correct (W : Nat) (g : Item → Item) (items : List Item)
    (evs : List PEvent) (sf : PoolState) (hW : 0 < W)
    (hrun : runPool W g items evs = some sf) (hdone : allDone sf) :
    sf.results = items.map fun it => some (g it) := by
  have hinv : PoolInv W g items sf :=
    runPool_inv W g items evs (poolInit W items.length) sf
      (poolInv_init W g items) hrun
  have hnoclaim : ∀ w idx : Nat, sf.claimed[w]? ≠ some (some idx) := by
    intro w idx
    by_cases hw : w < W
    · have hwd : w < sf.done.length := by
        rw [hinv.lenD]
        exact hw
      obtain ⟨b, hb⟩ : ∃ b, sf.done[w]? = some b :=
        ⟨sf.done[w], List.getElem?_eq_getElem hwd⟩
      have hbt : b = true := hdone b (List.getElem?_mem hb)
      subst hbt
      rw [hinv.doneNoClaim w hb]
      simp
    · have : sf.claimed[w]? = none := by
        apply List.getElem?_eq_none
        rw [hinv.lenC]
        omega
      rw [this]
      simp
  have hcur : items.length ≤ sf.cursor := by
    have hwd : 0 < sf.done.length := by
      rw [hinv.lenD]
      exact hW
    obtain ⟨b, hb⟩ : ∃ b, sf.done[0]? = some b :=
      ⟨sf.done[0], List.getElem?_eq_getElem hwd⟩
    have hbt : b = true := hdone b (List.getElem?_mem hb)
    subst hbt
    exact hinv.doneCur 0 hb
  apply List.ext_getElem?
  intro n
  by_cases hn : n < items.length
  · obtain ⟨it, hit⟩ : ∃ it, items[n]? = some it :=
      ⟨items[n], List.getElem?_eq_getElem hn⟩
    rw [hinv.resDone n it (by omega) hit (fun w => hnoclaim w n)]
    rw [List.getElem?_map, hit]
    rfl
  · rw [List.getElem?_eq_none (by rw [hinv.lenR]; omega),
      List.getElem?_eq_none (by rw [List.length_map]; omega)]

/-- C9: any complete execution of the Canonical Resolver pool
(`canonicalizeAll`, 5 workers) or the Aggregator Resolver pool
(`upgradeAggregatorsToOriginals`, 4 workers) — whatever the interleaving of
claims and completions — fills the pre-sized results array with exactly the
per-record transform of the record at the same index: the output mirrors the
input in length and position. -/
theorem boundedPool_mirrors_input :
    (∀ (rp : String → String) (items : List Item) (evs : List PEvent)
        (sf : PoolState),
      runPool CANON_CONCURRENCY (canonStep rp) items evs = some sf →
      allDone sf →
      sf.results = items.map fun it => some (canonStep rp it)) ∧
    (∀ (fo : String → Option String) (items : List Item) (evs : List PEvent)
        (sf : PoolState),
      runPool ORIG_CONCURRENCY (upgradeStep fo) items evs = some sf →
      allDone sf →
      sf.results = items.map fun it => some (upgradeStep fo it)) :=
  ⟨fun rp items evs sf h1 h2 =>
    pool_correct CANON_CONCURRENCY (canonStep rp) items evs sf (by decide) h1 h2,
   fun fo items evs sf h1 h2 =>
    pool_correct ORIG_CONCURRENCY (upgradeStep fo) items evs sf (by decide) h1 h2⟩

/-- Witness for C9: two-record schedules in which worker 1 finishes before
worker 0 (completion order differs from input order) still fill the results
at the original indices. -/
theorem boundedPool_mirrors_input_witness :
    runPool CANON_CONCURRENCY (canonStep fun s => s)
        [{ title := some "t", link := some "https://a.com/x" },
         { title := some "T", source := some "s" }]
        [.claim 0, .claim 1, .write 1, .write 0, .claim 0, .claim 1, .claim 2,
         .claim 3, .claim 4] =
      some
        ⟨7, List.replicate 5 none,
         [some { title := some "t", link := some "https://a.com/x",
                 source := some "a.com" },
          some { title := some "T", source := some "s" }],
         List.replicate 5 true⟩ ∧
    (⟨7, List.replicate 5 none,
      [some { title := some "t", link := some "https://a.com/x",
              source := some "a.com" },
       some { title := some "T", source := some "s" }],
      List.replicate 5 true⟩ : PoolState).results =
      [{ title := some "t", link := some "https://a.com/x" },
       { title := some "T", source := some "s" }].map
        (fun it => some (canonStep (fun s => s) it)) ∧
    runPool ORIG_CONCURRENCY
        (upgradeStep fun _ => some "https://brand.example/win")
        [{ title := some "w", link := some "https://www.contest.co.nz/c/1" }]
        [.claim 0, .write 0, .claim 0, .claim 1, .claim 2, .claim 3] =
      some
        ⟨5, List.replicate 4 none,
         [some { title := some "w", link := some "https://brand.example/win",
                 source := some "brand.example" }],
         List.replicate 4 true⟩ ∧
    (⟨5, List.replicate 4 none,
      [some { title := some "w", link := some "https://brand.example/win",
              source := some "brand.example" }],
      List.replicate 4 true⟩ : PoolState).results =
      [{ title := some "w", link := some "https://www.contest.co.nz/c/1" }].map
        (fun it => some (upgradeStep (fun _ => some "https://brand.example/win") it)) :=
  ⟨by decide,
   boundedPool_mirrors_input.1 (fun s => s)
     [{ title := some "t", link := some "https://a.com/x" },
      { title := some "T", source := some "s" }]
     [.claim 0, .claim 1, .write 1, .write 0, .claim 0, .claim 1, .claim 2,
      .claim 3, .claim 4] _ (by decide)
     (fun b hb => List.eq_of_mem_replicate hb),
   by decide,
   boundedPool_mirrors_input.2 (fun _ => some "https://brand.example/win")
     [{ title := some "w", link := some "https://www.contest.co.nz/c/1" }]
     [.claim 0, .write 0, .claim 0, .claim 1, .claim 2, .claim 3] _
     (by decide) (fun b hb => List.eq_of_mem_replicate hb)⟩

/-! ## Character-class and scanning lemmas for the URL round trip -/

theorem contains_eq_false {c : Char} {l : List Char} :
    l.contains c = false ↔ c ∉ l := by
  rw [Bool.eq_false_iff]
  exact not_congr List.elem_iff

theorem char_eq_iff_toNat {c d : Char} : c = d ↔ c.toNat = d.toNat :=
  ⟨congrArg Char.toNat, charToNatInj⟩

theorem goodByte_gt32 {c : Char} (h : goodByte c = true) : 32 < c.toNat := by
  unfold goodByte at h
  exact of_decide_eq_true (Bool.and_eq_true_iff.mp h).1

theorem isHostChar_gt32 {c : Char} (h : isHostChar c = true) : 32 < c.toNat := by
  unfold isHostChar at h
  exact goodByte_gt32 (Bool.and_eq_true_iff.mp (Bool.and_eq_true_iff.mp
    (Bool.and_eq_true_iff.mp (Bool.and_eq_true_iff.mp h).1).1).1).1

theorem isSchemeChar_ranges {c : Char} (h : isSchemeChar c = true) :
    (65 ≤ c.toNat ∧ c.toNat ≤ 90) ∨ (97 ≤ c.toNat ∧ c.toNat ≤ 122) ∨
    (48 ≤ c.toNat ∧ c.toNat ≤ 57) ∨ c.toNat = 43 ∨ c.toNat = 45 ∨ c.toNat = 46 := by
  unfold isSchemeChar isAlphaChar isDigitChar at h
  simp only [Bool.or_eq_true, Bool.and_eq_true, decide_eq_true_eq, beq_iff_eq] at h
  rcases h with ((((h | h) | h) | h) | h) | h
  · exact Or.inl h
  · exact Or.inr (Or.inl h)
  · exact Or.inr (Or.inr (Or.inl h))
  · subst h
    exact Or.inr (Or.inr (Or.inr (Or.inl rfl)))
  · subst h
    exact Or.inr (Or.inr (Or.inr (Or.inr (Or.inl rfl))))
  · subst h
    exact Or.inr (Or.inr (Or.inr (Or.inr (Or.inr rfl))))

theorem isSchemeChar_gt32 {c : Char} (h : isSchemeChar c = true) : 32 < c.toNat := by
  rcases isSchemeChar_ranges h with h1 | h1 | h1 | h1 | h1 | h1 <;> omega

theorem isSchemeChar_no_colon {l : List Char} (h : l.all isSchemeChar = true) :
    ∀ c ∈ l, ([':'] : List Char).contains c = false := by
  intro c hc
  have hr := isSchemeChar_ranges (List.all_eq_true.mp h c hc)
  rw [contains_eq_false, List.mem_singleton]
  intro he
  rw [char_eq_iff_toNat] at he
  have : (':' : Char).toNat = 58 := rfl
  omega

theorem isDigitChar_gt32 {c : Char} (h : isDigitChar c = true) : 32 < c.toNat := by
  unfold isDigitChar at h
  have := Bool.and_eq_true_iff.mp h
  have h1 := of_decide_eq_true this.1
  omega

theorem isDigitChar_no_stops {l : List Char} (h : l.all isDigitChar = true) :
    ∀ c ∈ l, (['/', '?', '#'] : List Char).contains c = false := by
  intro c hc
  have hd := List.all_eq_true.mp h c hc
  unfold isDigitChar at hd
  have h1 := of_decide_eq_true (Bool.and_eq_true_iff.mp hd).1
  have h2 := of_decide_eq_true (Bool.and_eq_true_iff.mp hd).2
  rw [contains_eq_false]
  intro hm
  rw [List.mem_cons, List.mem_cons, List.mem_singleton] at hm
  have : c.toNat = 47 ∨ c.toNat = 63 ∨ c.toNat = 35 := by
    rcases hm with h | h | h
    · exact Or.inl (char_eq_iff_toNat.mp h)
    · exact Or.inr (Or.inl (char_eq_iff_toNat.mp h))
    · exact Or.inr (Or.inr (char_eq_iff_toNat.mp h))
  omega

theorem noneOf_not_mem {bad l : List Char} (h : noneOf bad l = true) :
    ∀ c ∈ l, c ∉ bad := by
  intro c hc
  have := List.all_eq_true.mp h c hc
  rw [Bool.not_eq_true'] at this
  exact contains_eq_false.mp this

theorem noneOf_contains_false {bad l : List Char} (h : noneOf bad l = true) :
    ∀ c ∈ l, bad.contains c = false := by
  intro c hc
  exact contains_eq_false.mpr (noneOf_not_mem h c hc)

theorem sub_contains_false {bad big l : List Char}
    (h : ∀ c ∈ big, bad.contains c = false) (hsub : ∀ c ∈ l, c ∈ big) :
    ∀ c ∈ l, bad.contains c = false :=
  fun c hc => h c (hsub c hc)

/-! ### `spanUntil`, `splitOnChar` and `joinSep` -/

theorem spanUntil_cons (stops : List Char) (c : Char) (cs : List Char) :
    spanUntil stops (c :: cs) =
      if stops.contains c then ([], c :: cs)
      else (c :: (spanUntil stops cs).1, (spanUntil stops cs).2) := rfl

theorem spanUntil_append (stops : List Char) :
    ∀ a r : List Char, (∀ c ∈ a, stops.contains c = false) →
      spanUntil stops (a ++ r) =
        (a ++ (spanUntil stops r).1, (spanUntil stops r).2) := by
  intro a
  induction a with
  | nil =>
    intro r _
    simp
  | cons c a ih =>
    intro r h
    have hc : stops.contains c = false := h c (List.mem_cons_self _ _)
    rw [List.cons_append, spanUntil_cons, hc]
    simp only [Bool.false_eq_true, if_false]
    rw [ih r fun x hx => h x (List.mem_cons_of_mem _ hx)]
    simp

theorem spanUntil_stop (stops r : List Char)
    (h : r = [] ∨ ∃ c cs, r = c :: cs ∧ stops.contains c = true) :
    spanUntil stops r = ([], r) := by
  rcases h with h | ⟨c, cs, rfl, hc⟩
  · rw [h]
    rfl
  · rw [spanUntil_cons, hc]
    simp

theorem spanUntil_decomp (stops : List Char) :
    ∀ l : List Char, (spanUntil stops l).1 ++ (spanUntil stops l).2 = l := by
  intro l
  induction l with
  | nil => rfl
  | cons c cs ih =>
    rw [spanUntil_cons]
    by_cases h : stops.contains c
    · rw [if_pos h]
      rfl
    · rw [Bool.not_eq_true] at h
      rw [h]
      simpa using ih

theorem spanUntil_fst_no_stop (stops : List Char) :
    ∀ l : List Char, ∀ c ∈ (spanUntil stops l).1, stops.contains c = false := by
  intro l
  induction l with
  | nil =>
    intro c hc
    simp [spanUntil] at hc
  | cons d ds ih =>
    intro c hc
    rw [spanUntil_cons] at hc
    by_cases h : stops.contains d
    · rw [if_pos h] at hc
      simp at hc
    · rw [Bool.not_eq_true] at h
      rw [h] at hc
      simp only [Bool.false_eq_true, if_false] at hc
      rcases List.mem_cons.mp hc with h1 | h1
      · rw [h1]
        exact h
      · exact ih c h1

theorem spanUntil_fst_sub (stops : List Char) :
    ∀ l : List Char, ∀ c ∈ (spanUntil stops l).1, c ∈ l := by
  intro l c hc
  rw [← spanUntil_decomp stops l]
  exact List.mem_append_left _ hc

theorem spanUntil_snd_sub (stops : List Char) :
    ∀ l : List Char, ∀ c ∈ (spanUntil stops l).2, c ∈ l := by
  intro l c hc
  rw [← spanUntil_decomp stops l]
  exact List.mem_append_right _ hc

theorem splitOnChar_cons (d c : Char) (cs : List Char) :
    splitOnChar d (c :: cs) =
      match splitOnChar d cs with
      | [] => [[c]]
      | r :: rs => if c == d then [] :: r :: rs else (c :: r) :: rs := rfl

theorem splitOnChar_shape (d : Char) :
    ∀ l : List Char, ∃ r rs, splitOnChar d l = r :: rs := by
  intro l
  cases l with
  | nil => exact ⟨[], [], rfl⟩
  | cons c cs =>
    rw [splitOnChar_cons]
    rcases splitOnChar_shape d cs with ⟨r, rs, hr⟩
    rw [hr]
    by_cases h : c == d
    · rw [h]
      exact ⟨[], r :: rs, by simp⟩
    · rw [Bool.not_eq_true] at h
      rw [h]
      exact ⟨c :: r, rs, by simp⟩

theorem splitOnChar_single (d : Char) :
    ∀ p : List Char, (∀ c ∈ p, (c == d) = false) → splitOnChar d p = [p] := by
  intro p
  induction p with
  | nil =>
    intro _
    rfl
  | cons c cs ih =>
    intro h
    rw [splitOnChar_cons, ih fun x hx => h x (List.mem_cons_of_mem _ hx)]
    rw [h c (List.mem_cons_self _ _)]
    simp

theorem splitOnChar_join_pre (d : Char) :
    ∀ p rest : List Char, (∀ c ∈ p, (c == d) = false) →
      splitOnChar d (p ++ d :: rest) = p :: splitOnChar d rest := by
  intro p
  induction p with
  | nil =>
    intro rest _
    show splitOnChar d (d :: rest) = [] :: splitOnChar d rest
    rw [splitOnChar_cons]
    rcases splitOnChar_shape d rest with ⟨r, rs, hr⟩
    rw [hr]
    simp
  | cons c cs ih =>
    intro rest h
    show splitOnChar d (c :: (cs ++ d :: rest)) = (c :: cs) :: splitOnChar d rest
    rw [splitOnChar_cons, ih rest fun x hx => h x (List.mem_cons_of_mem _ hx)]
    rw [h c (List.mem_cons_self _ _)]
    simp

theorem splitOnChar_joinSep (d : Char) :
    ∀ ps : List (List Char), ps ≠ [] →
      (∀ p ∈ ps, ∀ c ∈ p, (c == d) = false) →
      splitOnChar d (joinSep d ps) = ps := by
  intro ps
  induction ps with
  | nil => intro h _; exact absurd rfl h
  | cons p ps ih =>
    intro _ h
    cases ps with
    | nil =>
      show splitOnChar d p = [p]
      exact splitOnChar_single d p (h p (List.mem_cons_self _ _))
    | cons p2 ps2 =>
      show splitOnChar d (p ++ d :: joinSep d (p2 :: ps2)) = p :: p2 :: ps2
      rw [splitOnChar_join_pre d p _ (h p (List.mem_cons_self _ _))]
      rw [ih (by simp) fun q hq => h q (List.mem_cons_of_mem _ hq)]

theorem joinSep_chars (d : Char) :
    ∀ ps : List (List Char), ∀ c ∈ joinSep d ps, c = d ∨ ∃ p ∈ ps, c ∈ p := by
  intro ps
  induction ps with
  | nil =>
    intro c hc
    simp [joinSep] at hc
  | cons p ps ih =>
    intro c hc
    cases ps with
    | nil =>
      exact Or.inr ⟨p, List.mem_cons_self _ _, hc⟩
    | cons p2 ps2 =>
      rcases List.mem_append.mp hc with h1 | h1
      · exact Or.inr ⟨p, List.mem_cons_self _ _, h1⟩
      · rcases List.mem_cons.mp h1 with h2 | h2
        · exact Or.inl h2
        · rcases ih c h2 with h3 | ⟨q, hq1, hq2⟩
          · exact Or.inl h3
          · exact Or.inr ⟨q, List.mem_cons_of_mem _ hq1, hq2⟩

/-! ### `preClean` is the identity on printable text -/

theorem dropWhile_head_false {p : Char → Bool} :
    ∀ l : List Char, (∀ c ∈ l, p c = false) → l.dropWhile p = l := by
  intro l h
  cases l with
  | nil => rfl
  | cons c cs =>
    rw [List.dropWhile_cons, h c (List.mem_cons_self _ _)]
    simp

theorem preClean_eq_self {l : List Char} (h : ∀ c ∈ l, 32 < c.toNat) :
    preClean l = l := by
  show (((l.filter fun c => !(c == '\t' || c == '\n' || c == '\r')).dropWhile
      (fun c => c.toNat ≤ 32)).reverse.dropWhile fun c => c.toNat ≤ 32).reverse = l
  have h9 : ('\t' : Char).toNat = 9 := rfl
  have h10 : ('\n' : Char).toNat = 10 := rfl
  have h13 : ('\r' : Char).toNat = 13 := rfl
  have hf : l.filter (fun c => !(c == '\t' || c == '\n' || c == '\r')) = l := by
    rw [List.filter_eq_self]
    intro c hc
    have h32 := h c hc
    simp only [Bool.not_eq_true', Bool.or_eq_false_iff, beq_eq_false_iff_ne, ne_eq]
    refine ⟨⟨?_, ?_⟩, ?_⟩ <;>
      · intro he
        rw [char_eq_iff_toNat] at he
        omega
  rw [hf]
  have hd1 : l.dropWhile (fun c => c.toNat ≤ 32) = l := by
    cases l with
    | nil => rfl
    | cons c cs =>
      have h32 := h c (List.mem_cons_self _ _)
      simp only [List.dropWhile_cons, decide_eq_true_eq]
      rw [if_neg (by omega)]
  rw [hd1]
  have hd2 : l.reverse.dropWhile (fun c => c.toNat ≤ 32) = l.reverse := by
    cases hr : l.reverse with
    | nil => rfl
    | cons c cs =>
      have hcm : c ∈ l := by
        rw [← List.mem_reverse, hr]
        exact List.mem_cons_self _ _
      have h32 := h c hcm
      simp only [List.dropWhile_cons, decide_eq_true_eq]
      rw [if_neg (by omega)]
  rw [hd2, List.reverse_reverse]

/-! ### Unpacking the well-formedness check -/

theorem wf_parts {u : URLRec} (h : wfCheckB u = true) :
    u.scheme.toList.isEmpty = false ∧
    isAlphaChar (u.scheme.toList.headD 'a') = true ∧
    u.scheme.toList.all isSchemeChar = true ∧
    lowerChars u.scheme.toList = u.scheme.toList ∧
    u.hostname.toList.isEmpty = false ∧
    u.hostname.toList.all isHostChar = true ∧
    noneOf [':', '/', '?', '#'] u.hostname.toList = true ∧
    lowerChars u.hostname.toList = u.hostname.toList ∧
    (match u.port with
     | none => true
     | some p =>
       !p.toList.isEmpty && p.toList.all isDigitChar &&
       !((u.scheme.toList == httpChars && p.toList == ['8', '0']) ||
         (u.scheme.toList == httpsChars && p.toList == ['4', '4', '3']))) = true ∧
    (match u.path.toList with
     | [] => !isSpecialScheme u.scheme.toList
     | c :: _ => c == '/') = true ∧
    u.path.toList.all goodByte = true ∧
    noneOf ['?', '#'] u.path.toList = true ∧
    u.query.all
      (fun kv =>
        kv.1.toList.all goodByte && noneOf ['&', '#', '='] kv.1.toList &&
        (match kv.2 with
         | none => true
         | some v => v.toList.all goodByte && noneOf ['&', '#'] v.toList)) = true ∧
    (match u.frag with
     | none => true
     | some f => f.toList.all goodByte) = true := by
  unfold wfCheckB at h
  simp only [Bool.and_eq_true, Bool.not_eq_true', beq_iff_eq] at h
  obtain ⟨⟨⟨⟨⟨⟨⟨⟨⟨ha1, ha2⟩, ha3⟩, hB⟩, ⟨⟨⟨hc1, hc2⟩, hc3⟩, hc4⟩⟩, hD⟩, hE⟩,
    ⟨hf1, hg2⟩⟩, hGq⟩, hHf⟩ := h
  exact ⟨ha1, ha2, ha3, hB, hc1, hc2, hc3, hc4, hD, hE, hf1, hg2, hGq, hHf⟩

/-! ### Every character of a well-formed serialized URL is printable -/

theorem render_toList (u : URLRec) :
    (URLRec.render u).toList =
      u.scheme.toList ++ ':' :: '/' :: '/' :: urlTail u := by
  show (u.scheme.toList ++ ':' :: '/' :: '/' :: u.hostname.toList ++
      (match u.port with
       | none => []
       | some p => ':' :: p.toList) ++
      u.path.toList ++ renderQuery u.query ++
      (match u.frag with
       | none => []
       | some f => '#' :: f.toList)) = _
  unfold urlTail urlRest urlPortChars urlFragChars
  simp [List.append_assoc]

theorem renderQueryPiece_gt32 {kv : String × Option String}
    (hk : kv.1.toList.all goodByte = true)
    (hv : ∀ v, kv.2 = some v → v.toList.all goodByte = true) :
    ∀ c ∈ renderQueryPiece kv, 32 < c.toNat := by
  intro c hc
  unfold renderQueryPiece at hc
  cases hkv : kv.2 with
  | none =>
    rw [hkv] at hc
    exact goodByte_gt32 (List.all_eq_true.mp hk c hc)
  | some v =>
    rw [hkv] at hc
    rcases List.mem_append.mp hc with h1 | h1
    · exact goodByte_gt32 (List.all_eq_true.mp hk c h1)
    · rcases List.mem_cons.mp h1 with h2 | h2
      · rw [h2]
        decide
      · exact goodByte_gt32 (List.all_eq_true.mp (hv v hkv) c h2)

theorem renderQuery_gt32 {q : List (String × Option String)}
    (hq : q.all
      (fun kv =>
        kv.1.toList.all goodByte && noneOf ['&', '#', '='] kv.1.toList &&
        (match kv.2 with
         | none => true
         | some v => v.toList.all goodByte && noneOf ['&', '#'] v.toList)) = true) :
    ∀ c ∈ renderQuery q, 32 < c.toNat := by
  intro c hc
  unfold renderQuery at hc
  cases q with
  | nil => simp at hc
  | cons kv0 q0 =>
    rcases List.mem_cons.mp hc with h1 | h1
    · rw [h1]
      decide
    · rcases joinSep_chars '&' _ c h1 with h2 | ⟨p, hp1, hp2⟩
      · rw [h2]
        decide
      · rcases List.mem_map.mp hp1 with ⟨kv, hkv1, hkv2⟩
        have hkv := List.all_eq_true.mp hq kv hkv1
        simp only [Bool.and_eq_true] at hkv
        refine renderQueryPiece_gt32 hkv.1.1 ?_ c (hkv2 ▸ hp2)
        intro v hvoid
        rw [hvoid] at hkv
        exact (Bool.and_eq_true_iff.mp hkv.2).1

theorem renderChars {u : URLRec} (h : wfCheckB u = true) :
    ∀ c ∈ (URLRec.render u).toList, 32 < c.toNat := by
  obtain ⟨_, _, ha3, _, _, hc2, _, _, hD, _, hf1, _, hGq, hHf⟩ := wf_parts h
  intro c hc
  rw [render_toList] at hc
  unfold urlTail urlRest urlPortChars urlFragChars at hc
  rcases List.mem_append.mp hc with h1 | h1
  · exact isSchemeChar_gt32 (List.all_eq_true.mp ha3 c h1)
  · rcases List.mem_cons.mp h1 with h2 | h1
    · rw [h2]; decide
    · rcases List.mem_cons.mp h1 with h2 | h1
      · rw [h2]; decide
      · rcases List.mem_cons.mp h1 with h2 | h1
        · rw [h2]; decide
        · rcases List.mem_append.mp h1 with h2 | h1
          · exact isHostChar_gt32 (List.all_eq_true.mp hc2 c h2)
          · rcases List.mem_append.mp h1 with h2 | h1
            · cases hport : u.port with
              | none =>
                rw [hport] at h2
                simp at h2
              | some p =>
                rw [hport] at h2 hD
                rcases List.mem_cons.mp h2 with h3 | h3
                · rw [h3]; decide
                · simp only [Bool.and_eq_true] at hD
                  exact isDigitChar_gt32 (List.all_eq_true.mp hD.1.2 c h3)
            · rcases List.mem_append.mp h1 with h2 | h1
              · exact goodByte_gt32 (List.all_eq_true.mp hf1 c h2)
              · rcases List.mem_append.mp h1 with h2 | h1
                · exact renderQuery_gt32 hGq c h2
                · cases hfrag : u.frag with
                  | none =>
                    rw [hfrag] at h1
                    simp at h1
                  | some f =>
                    rw [hfrag] at h1 hHf
                    rcases List.mem_cons.mp h1 with h3 | h3
                    · rw [h3]; decide
                    · exact goodByte_gt32 (List.all_eq_true.mp hHf c h3)

/-! ### Reassembly facts -/

theorem spanUntil_all (stops l : List Char)
    (h : ∀ c ∈ l, stops.contains c = false) : spanUntil stops l = (l, []) := by
  have h2 := spanUntil_append stops l [] h
  rw [show spanUntil stops ([] : List Char) = ([], []) from rfl] at h2
  simpa using h2

theorem qf_head (q : List (String × Option String)) (fm : List Char)
    (hfm : fm = [] ∨ ∃ f, fm = '#' :: f) :
    renderQuery q ++ fm = [] ∨
    (∃ t, renderQuery q ++ fm = '?' :: t) ∨ ∃ t, renderQuery q ++ fm = '#' :: t := by
  cases q with
  | nil =>
    rcases hfm with h | ⟨f, h⟩
    · rw [h]
      exact Or.inl rfl
    · rw [h]
      exact Or.inr (Or.inr ⟨f, rfl⟩)
  | cons kv q0 =>
    exact Or.inr (Or.inl ⟨joinSep '&' ((kv :: q0).map renderQueryPiece) ++ fm, rfl⟩)

theorem span_stop_of_qf (stops : List Char) (q : List (String × Option String))
    (fm : List Char) (hfm : fm = [] ∨ ∃ f, fm = '#' :: f)
    (h1 : stops.contains '?' = true) (h2 : stops.contains '#' = true) :
    spanUntil stops (renderQuery q ++ fm) = ([], renderQuery q ++ fm) := by
  apply spanUntil_stop
  rcases qf_head q fm hfm with h | ⟨t, ht⟩ | ⟨t, ht⟩
  · exact Or.inl h
  · exact Or.inr ⟨'?', t, ht, h1⟩
  · exact Or.inr ⟨'#', t, ht, h2⟩

theorem parseQueryPiece_render {kv : String × Option String}
    (hk : noneOf ['&', '#', '='] kv.1.toList = true) :
    parseQueryPiece (renderQueryPiece kv) = kv := by
  obtain ⟨k, v⟩ := kv
  have hkeq : ∀ c ∈ k.toList, (['='] : List Char).contains c = false := by
    intro c hc
    rw [contains_eq_false, List.mem_singleton]
    intro he
    apply noneOf_not_mem hk c hc
    rw [he]
    simp
  cases v with
  | none =>
    show parseQueryPiece k.toList = (k, none)
    unfold parseQueryPiece
    rw [spanUntil_all ['='] k.toList hkeq]
    show (String.mk k.toList, (none : Option String)) = (k, none)
    rw [mk_toList]
  | some v =>
    show parseQueryPiece (k.toList ++ '=' :: v.toList) = (k, some v)
    unfold parseQueryPiece
    rw [spanUntil_append ['='] k.toList ('=' :: v.toList) hkeq,
      spanUntil_stop ['='] ('=' :: v.toList) (Or.inr ⟨'=', v.toList, rfl, by decide⟩)]
    show (String.mk (k.toList ++ []), some (String.mk v.toList)) = (k, some v)
    rw [List.append_nil, mk_toList, mk_toList]

theorem renderQueryPiece_no_amp_hash {kv : String × Option String}
    (hkv : queryPairOk kv = true) :
    ∀ c ∈ renderQueryPiece kv, c ≠ '&' ∧ c ≠ '#' := by
  unfold queryPairOk at hkv
  simp only [Bool.and_eq_true] at hkv
  intro c hc
  unfold renderQueryPiece at hc
  cases hv : kv.2 with
  | none =>
    rw [hv] at hc
    have := noneOf_not_mem hkv.1.2 c hc
    simp only [List.mem_cons, List.mem_singleton] at this
    exact ⟨fun he => this (Or.inl he), fun he => this (Or.inr (Or.inl he))⟩
  | some v =>
    rw [hv] at hc hkv
    rcases List.mem_append.mp hc with h1 | h1
    · have := noneOf_not_mem hkv.1.2 c h1
      simp only [List.mem_cons, List.mem_singleton] at this
      exact ⟨fun he => this (Or.inl he), fun he => this (Or.inr (Or.inl he))⟩
    · rcases List.mem_cons.mp h1 with h2 | h2
      · rw [h2]
        exact ⟨by decide, by decide⟩
      · have := noneOf_not_mem (Bool.and_eq_true_iff.mp hkv.2).2 c h2
        simp only [List.mem_cons, List.mem_singleton] at this
        exact ⟨fun he => this (Or.inl he), fun he => this (Or.inr (Or.inl he))⟩

theorem renderQueryPieces_sep {q : List (String × Option String)}
    (hq : q.all queryPairOk = true) :
    (∀ p ∈ q.map renderQueryPiece, ∀ c ∈ p, (c == '&') = false) ∧
    (∀ c ∈ joinSep '&' (q.map renderQueryPiece),
      (['#'] : List Char).contains c = false) := by
  constructor
  · intro p hp c hc
    rcases List.mem_map.mp hp with ⟨kv, hkv1, hkv2⟩
    have := (renderQueryPiece_no_amp_hash (List.all_eq_true.mp hq kv hkv1) c
      (hkv2 ▸ hc)).1
    exact beq_eq_false_iff_ne.mpr this
  · intro c hc
    rw [contains_eq_false, List.mem_singleton]
    rcases joinSep_chars '&' _ c hc with h1 | ⟨p, hp1, hp2⟩
    · rw [h1]
      decide
    · rcases List.mem_map.mp hp1 with ⟨kv, hkv1, hkv2⟩
      exact (renderQueryPiece_no_amp_hash (List.all_eq_true.mp hq kv hkv1) c
        (hkv2 ▸ hp2)).2

/-- Reparsing the serialization of a well-formed record gives the record back. -/
theorem parseURLcore_render (u : URLRec) (h : wfCheckB u = true) :
    parseURLcore (URLRec.render u) = some u := by
  obtain ⟨ha1, ha2, ha3, hB, hc1, hc2, hc3, hc4, hD, hE, hf1, hf2, hGq, hHf⟩ := wf_parts h
  have hcs : preClean (URLRec.render u).toList = (URLRec.render u).toList :=
    preClean_eq_self (renderChars h)
  have hfm : urlFragChars u = [] ∨ ∃ ft, urlFragChars u = '#' :: ft := by
    unfold urlFragChars
    cases u.frag
    · exact Or.inl rfl
    · exact Or.inr ⟨_, rfl⟩
  have hpath : (u.path.toList = [] ∧ isSpecialScheme u.scheme.toList = false) ∨
      ∃ t, u.path.toList = '/' :: t := by
    cases hp : u.path.toList with
    | nil =>
      rw [hp] at hE
      have hE2 : (!isSpecialScheme u.scheme.toList) = true := hE
      rw [Bool.not_eq_true'] at hE2
      exact Or.inl ⟨rfl, hE2⟩
    | cons c t =>
      rw [hp] at hE
      have hE2 : (c == '/') = true := hE
      rw [beq_iff_eq] at hE2
      exact Or.inr ⟨t, by rw [hE2]⟩
  have hsplit : splitScheme ((URLRec.render u).toList) =
      some (u.scheme.toList, urlTail u) := by
    unfold splitScheme
    rw [render_toList,
      spanUntil_append [':'] u.scheme.toList (':' :: '/' :: '/' :: urlTail u)
        (isSchemeChar_no_colon ha3),
      spanUntil_stop [':'] (':' :: '/' :: '/' :: urlTail u)
        (Or.inr ⟨':', '/' :: '/' :: urlTail u, rfl, by decide⟩)]
    dsimp only
    rw [List.append_nil]
    rfl
  have hhost_slash : ∀ c ∈ u.hostname.toList,
      (['/', '?', '#'] : List Char).contains c = false := by
    intro c hc
    have h4 := noneOf_not_mem hc3 c hc
    rw [contains_eq_false]
    intro hmem
    exact h4 (List.mem_cons_of_mem ':' hmem)
  have hhost_col : ∀ c ∈ u.hostname.toList,
      ([':'] : List Char).contains c = false := by
    intro c hc
    have h4 := noneOf_not_mem hc3 c hc
    rw [contains_eq_false, List.mem_singleton]
    intro he
    exact h4 (by rw [he]; decide)
  have hPM_slash : ∀ c ∈ urlPortChars u,
      (['/', '?', '#'] : List Char).contains c = false := by
    intro c hc
    unfold urlPortChars at hc
    cases hpt : u.port with
    | none =>
      rw [hpt] at hc
      simp at hc
    | some p =>
      rw [hpt] at hc hD
      have hD2 : (!p.toList.isEmpty && p.toList.all isDigitChar &&
          !((u.scheme.toList == httpChars && p.toList == ['8', '0']) ||
            (u.scheme.toList == httpsChars && p.toList == ['4', '4', '3']))) = true := hD
      simp only [Bool.and_eq_true, Bool.not_eq_true'] at hD2
      rcases List.mem_cons.mp hc with h2 | h2
      · rw [h2]
        decide
      · exact isDigitChar_no_stops hD2.1.2 c h2
  have hR2span : spanUntil ['/', '?', '#'] (urlRest u) = ([], urlRest u) := by
    rcases hpath with ⟨hp0, _⟩ | ⟨t, hpt⟩
    · unfold urlRest
      rw [hp0, List.nil_append]
      exact span_stop_of_qf ['/', '?', '#'] u.query (urlFragChars u) hfm
        (by decide) (by decide)
    · unfold urlRest
      rw [hpt]
      exact spanUntil_stop _ _
        (Or.inr ⟨'/', t ++ (renderQuery u.query ++ urlFragChars u), rfl, by decide⟩)
  have hauth : spanUntil ['/', '?', '#'] (urlTail u) =
      (u.hostname.toList ++ urlPortChars u, urlRest u) := by
    unfold urlTail
    rw [spanUntil_append ['/', '?', '#'] u.hostname.toList
        (urlPortChars u ++ urlRest u) hhost_slash,
      spanUntil_append ['/', '?', '#'] (urlPortChars u) (urlRest u) hPM_slash,
      hR2span]
    simp
  have hPMcol : spanUntil [':'] (urlPortChars u) = ([], urlPortChars u) := by
    unfold urlPortChars
    cases u.port with
    | none => rfl
    | some p =>
      exact spanUntil_stop _ _ (Or.inr ⟨':', p.toList, rfl, by decide⟩)
  have hhp : spanUntil [':'] (u.hostname.toList ++ urlPortChars u) =
      (u.hostname.toList, urlPortChars u) := by
    rw [spanUntil_append [':'] u.hostname.toList (urlPortChars u) hhost_col, hPMcol]
    simp
  have hport0 : (match urlPortChars u with
      | ':' :: p => if p.isEmpty then none else some p
      | _ => (none : Option (List Char))) = u.port.map String.toList := by
    unfold urlPortChars
    cases hpt : u.port with
    | none => rfl
    | some p =>
      rw [hpt] at hD
      have hD2 : (!p.toList.isEmpty && p.toList.all isDigitChar &&
          !((u.scheme.toList == httpChars && p.toList == ['8', '0']) ||
            (u.scheme.toList == httpsChars && p.toList == ['4', '4', '3']))) = true := hD
      simp only [Bool.and_eq_true, Bool.not_eq_true'] at hD2
      show (if p.toList.isEmpty then none else some p.toList) = some p.toList
      rw [if_neg (show ¬(p.toList.isEmpty = true) by rw [hD2.1.1]; decide)]
  have hport1 : (match u.port.map String.toList with
      | some p =>
        if (lowerChars u.scheme.toList == httpChars && p == ['8', '0']) ||
            (lowerChars u.scheme.toList == httpsChars && p == ['4', '4', '3']) then none
        else some p
      | none => none) = u.port.map String.toList := by
    cases hpt : u.port with
    | none => rfl
    | some p =>
      rw [hpt] at hD
      have hD2 : (!p.toList.isEmpty && p.toList.all isDigitChar &&
          !((u.scheme.toList == httpChars && p.toList == ['8', '0']) ||
            (u.scheme.toList == httpsChars && p.toList == ['4', '4', '3']))) = true := hD
      simp only [Bool.and_eq_true, Bool.not_eq_true'] at hD2
      show (if (lowerChars u.scheme.toList == httpChars && p.toList == ['8', '0']) ||
          (lowerChars u.scheme.toList == httpsChars && p.toList == ['4', '4', '3']) then none
        else some p.toList) = some p.toList
      rw [hB, hD2.2]
      simp
  have hpr : (match urlRest u with
      | '/' :: _ => spanUntil ['?', '#'] (urlRest u)
      | r2 => (if isSpecialScheme (lowerChars u.scheme.toList) then ['/'] else [], r2)) =
      (u.path.toList, renderQuery u.query ++ urlFragChars u) := by
    rcases hpath with ⟨hp0, hspec⟩ | ⟨t, hpt⟩
    · have hre : urlRest u = renderQuery u.query ++ urlFragChars u := by
        unfold urlRest
        rw [hp0, List.nil_append]
      rw [hre, hp0]
      rcases qf_head u.query (urlFragChars u) hfm with hq | ⟨t0, hq⟩ | ⟨t0, hq⟩ <;>
        rw [hq, hB, hspec] <;> rfl
    · have hre : urlRest u = '/' :: (t ++ (renderQuery u.query ++ urlFragChars u)) := by
        unfold urlRest
        rw [hpt, List.cons_append]
      rw [hre]
      show spanUntil ['?', '#'] ('/' :: (t ++ (renderQuery u.query ++ urlFragChars u))) =
        (u.path.toList, renderQuery u.query ++ urlFragChars u)
      rw [← List.cons_append, ← hpt,
        spanUntil_append ['?', '#'] u.path.toList
          (renderQuery u.query ++ urlFragChars u) (noneOf_contains_false hf2),
        span_stop_of_qf ['?', '#'] u.query (urlFragChars u) hfm (by decide) (by decide)]
      simp
  have hQFspan2 : spanUntil ['#'] (urlFragChars u) = ([], urlFragChars u) := by
    rcases hfm with hfe | ⟨ft, hfe⟩ <;> rw [hfe]
    · rfl
    · exact spanUntil_stop _ _ (Or.inr ⟨'#', ft, rfl, by decide⟩)
  have hsep := renderQueryPieces_sep (show u.query.all queryPairOk = true from hGq)
  have hqr : (match renderQuery u.query ++ urlFragChars u with
      | '?' :: q => (some (spanUntil ['#'] q).1, (spanUntil ['#'] q).2)
      | r3 => ((none : Option (List Char)), r3)) =
      (qOptChars u, urlFragChars u) := by
    cases hq : u.query with
    | nil =>
      have h2 : qOptChars u = none := by
        unfold qOptChars
        rw [hq]
      rw [show renderQuery ([] : List (String × Option String)) = [] from rfl,
        List.nil_append, h2]
      rcases hfm with hfe | ⟨ft, hfe⟩
      · rw [hfe]
      · rw [hfe]
        rfl
    | cons kv q0 =>
      rw [hq] at hsep
      have h3 : qOptChars u = some (joinSep '&' ((kv :: q0).map renderQueryPiece)) := by
        unfold qOptChars
        rw [hq]
      rw [show renderQuery (kv :: q0) =
          '?' :: joinSep '&' ((kv :: q0).map renderQueryPiece) from rfl,
        List.cons_append, h3]
      show (some (spanUntil ['#']
            (joinSep '&' ((kv :: q0).map renderQueryPiece) ++ urlFragChars u)).1,
          (spanUntil ['#']
            (joinSep '&' ((kv :: q0).map renderQueryPiece) ++ urlFragChars u)).2) =
        (some (joinSep '&' ((kv :: q0).map renderQueryPiece)), urlFragChars u)
      rw [spanUntil_append ['#'] (joinSep '&' ((kv :: q0).map renderQueryPiece))
          (urlFragChars u) hsep.2, hQFspan2]
      simp
  have hfragm : (match urlFragChars u with
      | '#' :: f => some f
      | _ => (none : Option (List Char))) = u.frag.map String.toList := by
    unfold urlFragChars
    cases u.frag <;> rfl
  have hquery : ((qOptChars u).map parseQueryChars).getD [] = u.query := by
    cases hq : u.query with
    | nil =>
      have h2 : qOptChars u = none := by
        unfold qOptChars
        rw [hq]
      rw [h2]
      rfl
    | cons kv q0 =>
      rw [hq] at hsep hGq
      have h3 : qOptChars u = some (joinSep '&' ((kv :: q0).map renderQueryPiece)) := by
        unfold qOptChars
        rw [hq]
      rw [h3]
      show parseQueryChars (joinSep '&' ((kv :: q0).map renderQueryPiece)) = kv :: q0
      unfold parseQueryChars
      rw [splitOnChar_joinSep '&' ((kv :: q0).map renderQueryPiece)
          (by simp) hsep.1]
      rw [List.map_map]
      have hid : ∀ kv2 ∈ kv :: q0, (parseQueryPiece ∘ renderQueryPiece) kv2 = kv2 := by
        intro kv2 hkv2
        have hp := List.all_eq_true.mp hGq kv2 hkv2
        simp only [Bool.and_eq_true] at hp
        exact parseQueryPiece_render hp.1.2
      rw [show (kv :: q0).map (parseQueryPiece ∘ renderQueryPiece) =
          (kv :: q0).map id from List.map_congr_left hid, List.map_id]
  have hpo : (u.port.map String.toList).map String.mk = u.port := by
    cases u.port <;> rfl
  have hfo : (u.frag.map String.toList).map String.mk = u.frag := by
    cases u.frag <;> rfl
  unfold parseURLcore
  dsimp only
  rw [hcs, hsplit]
  dsimp only
  rw [hauth]
  dsimp only
  rw [hhp]
  dsimp only
  rw [hport0, hpr]
  dsimp only
  rw [hqr]
  dsimp only
  rw [hfragm, hport1, hquery, hB, hc4, mk_toList, mk_toList, mk_toList, hpo, hfo]

/-- Records are equal when all eight fields agree. -/
theorem item_ext {a b : Item} (h1 : a.id = b.id) (h2 : a.title = b.title)
    (h3 : a.link = b.link) (h4 : a.source = b.source)
    (h5 : a.createdAt = b.createdAt) (h6 : a.deadline = b.deadline)
    (h7 : a.prize = b.prize) (h8 : a.tags = b.tags) : a = b := by
  obtain ⟨a1, a2, a3, a4, a5, a6, a7, a8⟩ := a
  obtain ⟨b1, b2, b3, b4, b5, b6, b7, b8⟩ := b
  rw [show a1 = b1 from h1, show a2 = b2 from h2, show a3 = b3 from h3,
    show a4 = b4 from h4, show a5 = b5 from h5, show a6 = b6 from h6,
    show a7 = b7 from h7, show a8 = b8 from h8]

/-! ### Idempotence of the whitespace collapse -/

theorem collapseRun_cons_nonws {d : Char} (h : isWsChar d = false) :
    ∀ rest : List Char, collapseRun (d :: rest) = d :: collapseRun rest := by
  intro rest
  cases rest with
  | nil => simp [collapseRun, h]
  | cons e rest2 => simp [collapseRun, h]

theorem collapseRun_good : ∀ l : List Char, goodWs (collapseRun l) := by
  intro l
  induction l with
  | nil => exact ⟨fun c hc => absurd hc (List.not_mem_nil c), List.chain'_nil⟩
  | cons c cs ih =>
    cases cs with
    | nil =>
      constructor
      · intro x hx hwx
        rw [show collapseRun [c] = [if isWsChar c then ' ' else c] from rfl,
          List.mem_singleton] at hx
        by_cases hc : isWsChar c = true
        · rw [hx, if_pos hc]
        · rw [hx, if_neg hc] at hwx
          exact absurd hwx hc
      · exact List.chain'_singleton _
    | cons d cs2 =>
      have hstep : collapseRun (c :: d :: cs2) =
          if isWsChar c && isWsChar d then collapseRun (d :: cs2)
          else (if isWsChar c then ' ' else c) :: collapseRun (d :: cs2) := rfl
      by_cases hcd : (isWsChar c && isWsChar d) = true
      · rw [hstep, if_pos hcd]
        exact ih
      · rw [hstep, if_neg hcd]
        obtain ⟨ih1, ih2⟩ := ih
        refine ⟨?_, ?_⟩
        · intro x hx hwx
          rcases List.mem_cons.mp hx with hx1 | hx2
          · by_cases hc : isWsChar c = true
            · rw [hx1, if_pos hc]
            · rw [hx1, if_neg hc] at hwx
              exact absurd hwx hc
          · exact ih1 x hx2 hwx
        · rw [List.chain'_cons']
          refine ⟨?_, ih2⟩
          intro y hy
          by_cases hc : isWsChar c = true
          · have hd : isWsChar d = false := by
              cases hdt : isWsChar d
              · rfl
              · exact absurd (by rw [Bool.and_eq_true]; exact ⟨hc, hdt⟩) hcd
            rw [collapseRun_cons_nonws hd cs2, List.head?_cons] at hy
            have hyd : y = d := by
              cases hy
              rfl
            rintro ⟨_, hwy⟩
            rw [hyd, hd] at hwy
            exact Bool.false_ne_true hwy
          · rintro ⟨hwx2, _⟩
            rw [if_neg hc] at hwx2
            exact hc hwx2

theorem collapseRun_eq_self : ∀ l : List Char, goodWs l → collapseRun l = l := by
  intro l
  induction l with
  | nil => intro _; rfl
  | cons c cs ih =>
    intro hg
    obtain ⟨h1, h2⟩ := hg
    cases cs with
    | nil =>
      show [if isWsChar c then ' ' else c] = [c]
      by_cases hc : isWsChar c = true
      · rw [if_pos hc, h1 c (List.mem_singleton_self c) hc]
      · rw [if_neg hc]
    | cons d cs2 =>
      have hR := List.chain'_cons'.mp h2
      have hcd : (isWsChar c && isWsChar d) = false := by
        cases hb : (isWsChar c && isWsChar d)
        · rfl
        · exfalso
          rw [Bool.and_eq_true] at hb
          exact hR.1 d (by rw [List.head?_cons]; rfl) ⟨hb.1, hb.2⟩
      have hstep : collapseRun (c :: d :: cs2) =
          if isWsChar c && isWsChar d then collapseRun (d :: cs2)
          else (if isWsChar c then ' ' else c) :: collapseRun (d :: cs2) := rfl
      rw [hstep, if_neg (by rw [hcd]; exact Bool.false_ne_true)]
      have htail : collapseRun (d :: cs2) = d :: cs2 :=
        ih ⟨fun x hx => h1 x (List.mem_cons_of_mem c hx), hR.2⟩
      rw [htail]
      by_cases hc : isWsChar c = true
      · rw [if_pos hc, h1 c (List.mem_cons_self c _) hc]
      · rw [if_neg hc]

theorem goodWs_suffix {l l' : List Char} (h : goodWs l) (hs : l' <:+ l) : goodWs l' :=
  ⟨fun c hc hw => h.1 c (hs.subset hc) hw, h.2.suffix hs⟩

theorem goodWs_reverse {l : List Char} (h : goodWs l) : goodWs l.reverse := by
  refine ⟨fun c hc hw => h.1 c (List.mem_reverse.mp hc) hw, ?_⟩
  rw [List.chain'_reverse]
  exact h.2.imp (fun a b hab hp => hab ⟨hp.2, hp.1⟩)

theorem goodWs_trim {l : List Char} (h : goodWs l) : goodWs (trimSpacesList l) := by
  unfold trimSpacesList
  exact goodWs_reverse (goodWs_suffix
    (goodWs_reverse (goodWs_suffix h (List.dropWhile_suffix _)))
    (List.dropWhile_suffix _))

theorem dropWhile_head_eq {p : Char → Bool} :
    ∀ l : List Char, ∀ c, (l.dropWhile p).head? = some c → p c = false := by
  intro l
  induction l with
  | nil =>
    intro c hc
    exact absurd hc (by simp)
  | cons a as ih =>
    intro c hc
    rw [List.dropWhile_cons] at hc
    by_cases ha : p a = true
    · rw [if_pos ha] at hc
      exact ih c hc
    · rw [if_neg ha] at hc
      rw [List.head?_cons] at hc
      obtain rfl := Option.some.inj hc
      cases hpa : p a with
      | false => rfl
      | true => exact absurd hpa ha

theorem dropWhile_of_head {p : Char → Bool} :
    ∀ l : List Char, (∀ c, l.head? = some c → p c = false) → l.dropWhile p = l := by
  intro l h
  cases l with
  | nil => rfl
  | cons a as =>
    rw [List.dropWhile_cons, if_neg]
    intro ha
    rw [h a (by rw [List.head?_cons])] at ha
    exact Bool.false_ne_true ha

theorem dropWhile_idem {p : Char → Bool} :
    ∀ l : List Char, (l.dropWhile p).dropWhile p = l.dropWhile p := by
  intro l
  induction l with
  | nil => rfl
  | cons a as ih =>
    rw [List.dropWhile_cons]
    by_cases ha : p a = true
    · rw [if_pos ha]
      exact ih
    · rw [if_neg ha, List.dropWhile_cons, if_neg ha]

theorem getLast_append_ne (l1 l2 : List Char) (h2 : l2 ≠ []) :
    (l1 ++ l2).getLast? = l2.getLast? := by
  rw [← List.head?_reverse, ← List.head?_reverse, List.reverse_append]
  cases hr : l2.reverse with
  | nil => exact absurd (by rw [← List.reverse_reverse l2, hr]; rfl) h2
  | cons c cs => rw [List.cons_append, List.head?_cons, List.head?_cons]

theorem trim_trim (l : List Char) :
    trimSpacesList (trimSpacesList l) = trimSpacesList l := by
  unfold trimSpacesList
  set q : Char → Bool := fun c => c == ' ' with hq
  set A := l.dropWhile q with hA
  set B := A.reverse.dropWhile q with hB
  have h1 : B.reverse.dropWhile q = B.reverse := by
    apply dropWhile_of_head
    intro c hc
    rw [List.head?_reverse] at hc
    by_cases hBe : B = []
    · rw [hBe] at hc
      exact absurd hc (by simp)
    · obtain ⟨pre, hpre⟩ := List.dropWhile_suffix (l := A.reverse) q
      rw [← hB] at hpre
      have hc2 : A.reverse.getLast? = some c := by
        rw [← hpre, getLast_append_ne pre B hBe]
        exact hc
      rw [List.getLast?_reverse] at hc2
      rw [hA] at hc2
      exact dropWhile_head_eq l c hc2
  rw [h1, List.reverse_reverse, hB, dropWhile_idem]

theorem collapse_idem (s : String) : collapse (collapse s) = collapse s := by
  unfold collapse
  rw [toList_mk,
    collapseRun_eq_self (trimSpacesList (collapseRun s.toList))
      (goodWs_trim (collapseRun_good s.toList)),
    trim_trim]

/-! ### Idempotence of the remaining field transformations -/

theorem clampFutureISO_idem (now : Int) (o : Option DateStr) :
    clampFutureISO now (clampFutureISO now o) = clampFutureISO now o := by
  cases o with
  | none => rfl
  | some d =>
    have he : clampFutureISO now (some d) =
        if dateTruthy d then
          (match dparse d with
           | none => none
           | some t => some (.iso (min t (now + skewMs))))
        else none := rfl
    rw [he]
    by_cases hdt : dateTruthy d = true
    · rw [if_pos hdt]
      cases hp : dparse d with
      | none => rfl
      | some t =>
        show some (DateStr.iso (min (min t (now + skewMs)) (now + skewMs))) =
          some (DateStr.iso (min t (now + skewMs)))
        rw [min_assoc, min_self]
    · rw [if_neg hdt]
      rfl

theorem normDeadline_idem (o : Option DateStr) :
    normDeadline (normDeadline o) = normDeadline o := by
  cases o with
  | none => rfl
  | some d =>
    have he : normDeadline (some d) =
        if dateTruthy d then
          (match dparse d with
           | some t => some (DateStr.iso t)
           | none => none)
        else none := rfl
    rw [he]
    by_cases hdt : dateTruthy d = true
    · rw [if_pos hdt]
      cases hp : dparse d with
      | none => rfl
      | some t => rfl
    · rw [if_neg hdt]
      rfl

theorem normPrize_idem (o : Option String) :
    normPrize (normPrize o) = normPrize o := by
  cases o with
  | none => rfl
  | some s =>
    have he : normPrize (some s) = if s = "" then none else some s := rfl
    rw [he]
    by_cases hs : s = ""
    · rw [if_pos hs]
      rfl
    · rw [if_neg hs, he, if_neg hs]

/-! ## C3 — idempotence of the Normalizer -/

/-- C3 (amended): the Normalizer is not idempotent on every record (see the
counterexample: a link with a doubled trailing slash is shortened again by
the second application, because `cleanUrl` removes only one trailing slash
per call).  With the current time held fixed, it is idempotent exactly where
its link transformation is: if `cleanUrl` is idempotent at the record's
string-or-empty link, applying `normalizeItem` twice equals applying it
once, with every field unchanged by the second application. -/
theorem normalizeItem_idem (now : Int) (raw : Item)
    (h : cleanUrl (cleanUrl (strOr raw.link "")) = cleanUrl (strOr raw.link "")) :
    normalizeItem now (normalizeItem now raw) = normalizeItem now raw := by
  apply item_ext
  · simp only [normalizeItem, strOr_some_empty, h, collapse_idem, strOr_absorb]
  · simp only [normalizeItem, strOr_some_empty, collapse_idem]
  · simp only [normalizeItem, strOr_some_empty, h]
  · simp only [normalizeItem, strOr_some_empty, h, strOr_absorb]
  · exact clampFutureISO_idem now raw.createdAt
  · exact normDeadline_idem raw.deadline
  · exact normPrize_idem raw.prize
  · rfl

/-- C3 counterexample: on a record whose link is "https://x.com/a//" the
second normalization shortens the link again (the cleaner trims one trailing
slash per call), so `normalize(normalize(x)) != normalize(x)`. -/
theorem normalizeItem_not_idem :
    normalizeItem 0 (normalizeItem 0 { link := some "https://x.com/a//" }) ≠
      normalizeItem 0 { link := some "https://x.com/a//" } := by
  decide

/-- C3 witness: the amended idempotence theorem applied to a record whose
link is already canonical. -/
theorem normalizeItem_idem_witness :
    normalizeItem 0 (normalizeItem 0 { link := some "https://x.com/a" }) =
      normalizeItem 0 { link := some "https://x.com/a" } :=
  normalizeItem_idem 0 { link := some "https://x.com/a" } (by decide)

/-! ## C4 — cleaning an already-clean URL -/

/-- C4 (amended): on a URL in canonical serialized form — the rendering of a
well-formed record — with no fragment, no tracking parameter in the query,
and no trimmable trailing slash, `cleanUrl` is the identity.  Over raw
strings the claim is false: a bare-host URL such as "https://example.com"
has no tracking parameters, no fragment and no trailing slash, yet cleaning
appends the root slash that URL parsing introduces (see the
counterexample). -/
theorem cleanUrl_canonical_id (u : URLRec)
    (hwf : wfCheckB u = true)
    (hfrag : u.frag = none)
    (hq : u.query.all (fun kv => !(isDropKey kv.1)) = true)
    (hsl : ¬(1 < u.path.toList.length ∧ endsSlash u.path = true)) :
    cleanUrl (URLRec.render u) = URLRec.render u := by
  have hp : parseURL (URLRec.render u) = some u := by
    unfold parseURL
    rw [parseURLcore_render u hwf]
    show (if wfCheckB u then some u else none) = some u
    rw [if_pos hwf]
  have hcr : cleanRec u = u := by
    unfold cleanRec
    have h1 : lowerStr u.hostname = u.hostname := by
      obtain ⟨_, _, _, _, _, _, _, hc4, _, _, _, _, _, _⟩ := wf_parts hwf
      unfold lowerStr
      rw [hc4, mk_toList]
    have h2 : u.query.filter (fun kv => !(isDropKey kv.1)) = u.query :=
      List.filter_eq_self.mpr (List.all_eq_true.mp hq)
    have h3 : trimOneSlash u.path = u.path := by
      unfold trimOneSlash
      rw [if_neg hsl]
    rw [h1, h2, h3, ← hfrag]
  unfold cleanUrl
  rw [hp]
  show (cleanRec u).render = URLRec.render u
  rw [hcr]

/-- C4 counterexample: "https://example.com" is absolute, has no query, no
fragment and no trailing slash, yet `cleanUrl` returns
"https://example.com/" — URL parsing gives the empty path of a special
scheme the value "/", which serialization keeps. -/
theorem cleanUrl_root_counterexample :
    cleanUrl "https://example.com" ≠ "https://example.com" ∧
      parseURL "https://example.com" ≠ none := by
  decide

/-- C4 witness: the amended theorem applied to a concrete canonical URL. -/
theorem cleanUrl_canonical_id_witness :
    cleanUrl (URLRec.render
      ⟨"https", "example.com", none, "/win/a", [("x", some "1")], none⟩) =
      URLRec.render
        ⟨"https", "example.com", none, "/win/a", [("x", some "1")], none⟩ :=
  cleanUrl_canonical_id
    ⟨"https", "example.com", none, "/win/a", [("x", some "1")], none⟩
    (by decide) rfl (by decide) (by decide)

end CompHunt
